import Mathlib

/-!
# Verification of conda-build recipe metadata processing

A shallow embedding, in Lean 4, of the core pure algorithms of
`conda_build/metadata.py`: the recipe-document sanitizer (git alias
collapse and literal-"None" trimming), the selector mini-language and
conditional line filter, the YAML-1.1 boolean coercion in `get_value`,
the content-hash input projection and build-identifier stamping, the
sub-package topological sort, and the fixed-point template-resolution
loop.  Recipe documents are modelled as a tagged tree of strings,
sequences and (ordered, insertion-order) mappings, mirroring the shapes
produced by the YAML BaseLoader used by the source.  External
collaborators (the regex engine, hashlib, the jinja renderer and
conda's `_toposort`) are modelled at their documented interface, as
noted on each definition.
-/

/-- A decoded recipe value: the YAML BaseLoader produces strings, sequences
and mappings; `None` appears when the trimming pass nulls out a string, and
booleans appear through `get_value`'s YAML-1.1 coercion.  Mappings are
association lists in insertion order, mirroring Python dict ordering. -/
inductive Val where
  | vNone : Val
  | vBool (b : Bool) : Val
  | vStr (s : String) : Val
  | vList (xs : List Val) : Val
  | vMap (entries : List (String × Val)) : Val

mutual

/-- Structural boolean equality on `Val` (needed because automatic deriving
does not handle the nested induction). -/
def valBEq : Val → Val → Bool
  | Val.vNone, Val.vNone => true
  | Val.vBool a, Val.vBool b => a == b
  | Val.vStr a, Val.vStr b => a == b
  | Val.vList xs, Val.vList ys => valListBEq xs ys
  | Val.vMap xs, Val.vMap ys => valMapBEq xs ys
  | _, _ => false

def valListBEq : List Val → List Val → Bool
  | [], [] => true
  | x :: xs, y :: ys => valBEq x y && valListBEq xs ys
  | _, _ => false

def valMapBEq : List (String × Val) → List (String × Val) → Bool
  | [], [] => true
  | (k, v) :: xs, (k2, v2) :: ys => k == k2 && valBEq v v2 && valMapBEq xs ys
  | _, _ => false

end

mutual

def valBEq_iff : ∀ a b : Val, valBEq a b = true ↔ a = b
  | Val.vNone, Val.vNone => by simp [valBEq]
  | Val.vBool _, Val.vBool _ => by simp [valBEq]
  | Val.vStr _, Val.vStr _ => by simp [valBEq]
  | Val.vList xs, Val.vList ys => by
      simp only [valBEq, Val.vList.injEq]
      exact valListBEq_iff xs ys
  | Val.vMap xs, Val.vMap ys => by
      simp only [valBEq, Val.vMap.injEq]
      exact valMapBEq_iff xs ys
  | Val.vNone, Val.vBool _ => by simp [valBEq]
  | Val.vNone, Val.vStr _ => by simp [valBEq]
  | Val.vNone, Val.vList _ => by simp [valBEq]
  | Val.vNone, Val.vMap _ => by simp [valBEq]
  | Val.vBool _, Val.vNone => by simp [valBEq]
  | Val.vBool _, Val.vStr _ => by simp [valBEq]
  | Val.vBool _, Val.vList _ => by simp [valBEq]
  | Val.vBool _, Val.vMap _ => by simp [valBEq]
  | Val.vStr _, Val.vNone => by simp [valBEq]
  | Val.vStr _, Val.vBool _ => by simp [valBEq]
  | Val.vStr _, Val.vList _ => by simp [valBEq]
  | Val.vStr _, Val.vMap _ => by simp [valBEq]
  | Val.vList _, Val.vNone => by simp [valBEq]
  | Val.vList _, Val.vBool _ => by simp [valBEq]
  | Val.vList _, Val.vStr _ => by simp [valBEq]
  | Val.vList _, Val.vMap _ => by simp [valBEq]
  | Val.vMap _, Val.vNone => by simp [valBEq]
  | Val.vMap _, Val.vBool _ => by simp [valBEq]
  | Val.vMap _, Val.vStr _ => by simp [valBEq]
  | Val.vMap _, Val.vList _ => by simp [valBEq]

def valListBEq_iff : ∀ xs ys : List Val, valListBEq xs ys = true ↔ xs = ys
  | [], [] => by simp [valListBEq]
  | x :: xs, y :: ys => by
      simp only [valListBEq, Bool.and_eq_true, List.cons.injEq]
      exact and_congr (valBEq_iff x y) (valListBEq_iff xs ys)
  | [], _ :: _ => by simp [valListBEq]
  | _ :: _, [] => by simp [valListBEq]

def valMapBEq_iff : ∀ xs ys : List (String × Val), valMapBEq xs ys = true ↔ xs = ys
  | [], [] => by simp [valMapBEq]
  | (k, v) :: xs, (k2, v2) :: ys => by
      simp only [valMapBEq, Bool.and_eq_true, List.cons.injEq, Prod.mk.injEq, beq_iff_eq]
      rw [valBEq_iff v v2, valMapBEq_iff xs ys, and_assoc]
  | [], _ :: _ => by simp [valMapBEq]
  | _ :: _, [] => by simp [valMapBEq]

end

instance : BEq Val := ⟨valBEq⟩

instance : LawfulBEq Val where
  eq_of_beq h := (valBEq_iff _ _).mp h
  rfl := (valBEq_iff _ _).mpr rfl

instance : DecidableEq Val := fun a b => decidable_of_iff _ (valBEq_iff a b)

/-- Python `dict` read: first (hence, for unique keys, only) binding of `k`. -/
def alookup {α : Type} : List (String × α) → String → Option α
  | [], _ => none
  | (k2, v) :: rest, k => if k2 = k then some v else alookup rest k

/-- Python `dict` assignment: replace the binding in place if the key is
present, otherwise append a new binding at the end (insertion order). -/
def aset {α : Type} : List (String × α) → String → α → List (String × α)
  | [], k, v => [(k, v)]
  | (k2, v2) :: rest, k, v =>
    if k2 = k then (k, v) :: rest else (k2, v2) :: aset rest k v

/-- Python `dict.pop(k, None)` / `del d[k]`: drop the binding of `k`. -/
def aerase {α : Type} (l : List (String × α)) (k : String) : List (String × α) :=
  l.filter (fun e => e.1 ≠ k)

/-- The keys of an association list, in order. -/
def akeys {α : Type} (l : List (String × α)) : List String :=
  l.map Prod.fst

/-- Python truthiness of a decoded value (`bool(v)`). -/
def pyTruthy : Val → Bool
  | Val.vNone => false
  | Val.vBool b => b
  | Val.vStr s => !s.data.isEmpty
  | Val.vList xs => !xs.isEmpty
  | Val.vMap es => !es.isEmpty

/-- `needle` occurs at the head of the character list. -/
def strStartsL : List Char → List Char → Bool
  | [], _ => true
  | _ :: _, [] => false
  | p :: ps, c :: cs => p == c && strStartsL ps cs

/-- `needle` occurs somewhere in the character list (Python `needle in hay`). -/
def strContainsL (needle : List Char) : List Char → Bool
  | [] => needle.isEmpty
  | c :: cs => strStartsL needle (c :: cs) || strContainsL needle cs

/-- Python substring test `needle in hay` on strings. -/
def strContains (hay needle : String) : Bool :=
  strContainsL needle.data hay.data

/-- Python `hay.startswith(needle)` on strings. -/
def strStarts (needle hay : String) : Bool :=
  strStartsL needle.data hay.data


/-- ASCII uppercase → lowercase pairs (`str.lower` on the characters the
recipe fields use). -/
def asciiLowerPairs : List (Char × Char) :=
  [('A', 'a'), ('B', 'b'), ('C', 'c'), ('D', 'd'), ('E', 'e'), ('F', 'f'),
   ('G', 'g'), ('H', 'h'), ('I', 'i'), ('J', 'j'), ('K', 'k'), ('L', 'l'),
   ('M', 'm'), ('N', 'n'), ('O', 'o'), ('P', 'p'), ('Q', 'q'), ('R', 'r'),
   ('S', 's'), ('T', 't'), ('U', 'u'), ('V', 'v'), ('W', 'w'), ('X', 'x'),
   ('Y', 'y'), ('Z', 'z')]

/-- Lowercase one character (ASCII). -/
def asciiLower (c : Char) : Char :=
  match asciiLowerPairs.find? (fun p => p.1 == c) with
  | some p => p.2
  | none => c

/-- Python `s.lower()` (ASCII). -/
def lowerStr (s : String) : String := String.mk (s.data.map asciiLower)

/-- Python `s.split(sep)` for a one-character separator, on character
lists: always returns at least one (possibly empty) piece. -/
def splitOnCharL (sep : Char) : List Char → List (List Char)
  | [] => [[]]
  | c :: cs =>
      let rest := splitOnCharL sep cs
      if c == sep then [] :: rest
      else match rest with
           | h :: t => (c :: h) :: t
           | [] => [[c]]

/-- Python `s.split(sep)` for a one-character separator. -/
def splitOnChar (sep : Char) (s : String) : List String :=
  (splitOnCharL sep s.data).map String.mk

/-- Python `s.replace(old, new)` on character lists: replace each leftmost
non-overlapping occurrence, scanning left to right (`old` is never empty
where this is used: it is an identifier out of a NameError).  Structural
recursion on fuel, one unit per consumed character, so fuel = length is
always enough. -/
def replaceLF (old new : List Char) : ℕ → List Char → List Char
  | _, [] => []
  | 0, l => l
  | fuel+1, c :: cs =>
      if !old.isEmpty && strStartsL old (c :: cs) then
        new ++ replaceLF old new fuel ((c :: cs).drop old.length)
      else c :: replaceLF old new fuel cs

/-- Python `s.replace(old, new)`. -/
def pyReplace (s old new : String) : String :=
  String.mk (replaceLF old.data new.data s.data.length s.data)

/-- `trues` from metadata.py: YAML 1.1 spellings coerced to `True`. -/
def trues : List String := [("y"), ("on"), ("true"), ("yes")]

/-- `falses` from metadata.py: YAML 1.1 spellings coerced to `False`. -/
def falses : List String := [("n"), ("no"), ("false"), ("off")]

/-- `default_structs` from metadata.py: per-field default constructors
(`list`, `text_type`, `bool`), instantiated to their empty/False values. -/
def default_structs : List (String × Val) :=
  [ (("build/entry_points"), Val.vList [])
  , (("build/features"), Val.vList [])
  , (("source/patches"), Val.vList [])
  , (("build/script"), Val.vList [])
  , (("build/script_env"), Val.vList [])
  , (("build/run_exports"), Val.vList [])
  , (("build/track_features"), Val.vList [])
  , (("requirements/build"), Val.vList [])
  , (("requirements/host"), Val.vList [])
  , (("requirements/run"), Val.vList [])
  , (("requirements/conflicts"), Val.vList [])
  , (("requirements/run_constrained"), Val.vList [])
  , (("test/requires"), Val.vList [])
  , (("test/files"), Val.vList [])
  , (("test/source_files"), Val.vList [])
  , (("test/commands"), Val.vList [])
  , (("test/imports"), Val.vList [])
  , (("package/version"), Val.vStr (""))
  , (("build/string"), Val.vStr (""))
  , (("build/pin_depends"), Val.vStr (""))
  , (("source/svn_rev"), Val.vStr (""))
  , (("source/git_tag"), Val.vStr (""))
  , (("source/git_branch"), Val.vStr (""))
  , (("source/md5"), Val.vStr (""))
  , (("source/git_rev"), Val.vStr (""))
  , (("source/path"), Val.vStr (""))
  , (("source/git_url"), Val.vStr (""))
  , (("build/osx_is_app"), Val.vBool false)
  , (("build/preserve_egg_dir"), Val.vBool false)
  , (("build/binary_relocation"), Val.vBool false)
  , (("build/noarch"), Val.vStr (""))
  , (("build/noarch_python"), Val.vBool false)
  , (("build/detect_binary_files_with_prefix"), Val.vBool false)
  , (("build/skip"), Val.vBool false)
  , (("build/skip_compile_pyc"), Val.vList [])
  , (("build/preferred_env"), Val.vStr (""))
  , (("build/preferred_env_executable_paths"), Val.vList [])
  , (("app/own_environment"), Val.vBool false)
  ]

/-- `MetaData.get_section`: `self.meta.get(section, \x7b\x7d)`.  (A stored
non-mapping section would make the caller's `.get` fail in Python; such
documents do not survive `parse`, and are modelled as the empty mapping.) -/
def get_section (meta : List (String × Val)) (sect : String) :
    List (String × Val) :=
  match alookup meta sect with
  | some (Val.vMap es) => es
  | _ => []

/-- The YAML 1.1 boolean normalization inside `MetaData.get_value`: a string
whose lowercase form is in `trues` (resp. `falses`) becomes `True` (`False`);
every other value passes through unchanged. -/
def coerceYamlBool (v : Val) : Val :=
  match v with
  | Val.vStr s =>
      if trues.contains (lowerStr s) then Val.vBool true
      else if falses.contains (lowerStr s) then Val.vBool false
      else Val.vStr s
  | other => other

/-- `MetaData.get_value` (with `autotype=True`, the default): split the field
into section/key, select the default (the `default_structs` constructor when
no explicit default is given), read the section, and apply the YAML 1.1
boolean normalization.  A field that does not split into exactly
`section/key` raises in Python; it is modelled as `None`. -/
def get_value (meta : List (String × Val)) (field : String)
    (dflt : Option Val) : Val :=
  match splitOnChar '/' field with
  | [sect, key] =>
      let d := match dflt with
               | some v => v
               | none => (alookup default_structs field).getD Val.vNone
      coerceYamlBool ((alookup (get_section meta sect) key).getD d)
  | _ => Val.vNone

/-- The three git revision keys inspected by `_git_clean`, in source order. -/
def git_rev_tags : List String := [("git_rev"), ("git_branch"), ("git_tag")]

/-- `bool(source_meta.get(tag, text_type()))` for one tag. -/
def has_rev_tag (source_meta : List (String × Val)) (tag : String) : Bool :=
  pyTruthy ((alookup source_meta tag).getD (Val.vStr ("")))

/-- The git revision keys that are simultaneously set (non-empty), in source
order; `_git_clean` errors when there are at least two and its error message
lists exactly these keys. -/
def gitConflictKeys (source_meta : List (String × Val)) : List String :=
  git_rev_tags.filter (fun t => has_rev_tag source_meta t)

/-- Python `', '.join(ks)`. -/
def joinComma : List String → String
  | [] => ""
  | [x] => x
  | x :: rest => x ++ ", " ++ joinComma rest

/-- The `sys.exit` message built by `_git_clean` on conflict. -/
def gitErrMsg (ks : List String) : String :=
  "Error: multiple git_revs:" ++ joinComma ks

/-- `_git_clean`: collapse the legacy `git_branch`/`git_tag` aliases into
`git_rev`.  If two or more of the three keys are non-empty the pass exits
with a message naming them; otherwise whichever legacy key is set is copied
into `git_rev` and both legacy keys are dropped. -/
def _git_clean (source_meta : List (String × Val)) :
    Except String (List (String × Val)) :=
  if 2 ≤ (gitConflictKeys source_meta).length then
    Except.error (gitErrMsg (gitConflictKeys source_meta))
  else
    Except.ok (List.foldl
      (fun acc key =>
        let acc2 :=
          if has_rev_tag source_meta key then
            aset acc ("git_rev") ((alookup acc key).getD (Val.vStr ("")))
          else acc
        aerase acc2 key)
      source_meta (git_rev_tags.drop 1))

/-- A value that is pruned by `trim_empty_keys`: `None`, an empty string, an
empty sequence or an empty mapping.  Booleans are never pruned. -/
def isEmptyVal : Val → Bool
  | Val.vNone => true
  | Val.vStr s => s.data.isEmpty
  | Val.vList xs => xs.isEmpty
  | Val.vMap es => es.isEmpty
  | Val.vBool _ => false

/-- Modelled from the spec: `utils.trim_empty_keys` (the function lives in
`conda_build/utils.py`, which is not part of this source tree).  Per the
spec it drops keys whose value has become empty or `None`, pruning one
mapping level; nested levels are pruned by the callers' own recursion. -/
def trim_empty_keys (l : List (String × Val)) : List (String × Val) :=
  l.filter (fun e => !isEmptyVal e.2)

/-- The element filter of `_trim_None_strings` for homogeneous non-mapping
sequences: `[i for i in value if 'None' not in i]`.  Python `in` is a
substring test on strings, key membership on mappings and element membership
on sequences; on `None`/booleans it raises (unreachable for decoded
documents, modelled as keep). -/
def keepNoNone : Val → Bool
  | Val.vStr s => !strContains s ("None")
  | Val.vMap es => !(akeys es).contains ("None")
  | Val.vList xs => !xs.contains (Val.vStr ("None"))
  | Val.vNone => true
  | Val.vBool _ => true

mutual

/-- `_trim_None_strings`: recursively null out strings containing the
literal token `None`, filter them out of homogeneous sequences, and finish
with `trim_empty_keys` on the processed mapping. -/
def _trim_None_strings (es : List (String × Val)) : List (String × Val) :=
  trim_empty_keys (trimEntries es)
termination_by sizeOf es * 2 + 1
decreasing_by all_goals (simp_wf; try omega)

/-- The per-entry loop body of `_trim_None_strings`. -/
def trimEntries : List (String × Val) → List (String × Val)
  | [] => []
  | (k, v) :: rest => (k, trimValue v) :: trimEntries rest
termination_by l => sizeOf l * 2
decreasing_by all_goals (simp_wf; try omega)

/-- The per-value dispatch of `_trim_None_strings`: mappings recurse;
strings containing `None` become `None`; a non-empty sequence whose first
element is a mapping is treated as a homogeneous sequence of mappings (each
trimmed, empties dropped — Python raises on a non-mapping element there,
modelled as drop); any other non-empty sequence is filtered by
`keepNoNone`; everything else is left unchanged. -/
def trimValue : Val → Val
  | Val.vMap es => Val.vMap (_trim_None_strings es)
  | Val.vStr s => if strContains s ("None") then Val.vNone else Val.vStr s
  | Val.vList [] => Val.vList []
  | Val.vList (Val.vMap m :: xs) => Val.vList (trimDictList (Val.vMap m :: xs))
  | Val.vList (x :: xs) => Val.vList ((x :: xs).filter keepNoNone)
  | Val.vNone => Val.vNone
  | Val.vBool b => Val.vBool b
termination_by v => sizeOf v * 2
decreasing_by all_goals (simp_wf; try omega)

/-- The homogeneous-sequence-of-mappings branch of `_trim_None_strings`. -/
def trimDictList : List Val → List Val
  | [] => []
  | Val.vMap m :: rest =>
      let t := _trim_None_strings m
      if t.isEmpty then trimDictList rest else Val.vMap t :: trimDictList rest
  | _ :: rest => trimDictList rest
termination_by l => sizeOf l * 2
decreasing_by all_goals (simp_wf; try omega)

end

/-- `_git_clean` lifted to one element of a `source` sequence (Python
applies it to each element; a non-mapping element makes it raise). -/
def gitCleanListElem (x : Val) : Except String Val :=
  match x with
  | Val.vMap m => (_git_clean m).map Val.vMap
  | _ => Except.error ("source list entries must be mappings")

/-- `sanitize`: apply `_git_clean` to the `source` section (a mapping, or a
sequence of mappings), then `_trim_None_strings` to the whole document. -/
def sanitize (meta : List (String × Val)) :
    Except String (List (String × Val)) := do
  let meta2 ←
    match alookup meta ("source") with
    | none => pure meta
    | some (Val.vMap sm) => do
        let c ← _git_clean sm
        pure (aset meta ("source") (Val.vMap c))
    | some (Val.vList xs) => do
        let cs ← xs.mapM gitCleanListElem
        pure (aset meta ("source") (Val.vList cs))
    | some _ => Except.error ("source must be a mapping or list of mappings")
  pure (_trim_None_strings meta2)

/-- Tokens of the selector boolean grammar. -/
inductive Tok where
  | tTrue : Tok
  | tFalse : Tok
  | tAnd : Tok
  | tOr : Tok
  | tNot : Tok
  | tLParen : Tok
  | tRParen : Tok
  | tId (s : String) : Tok
deriving DecidableEq, Repr

/-- Characters that may continue a Python identifier. -/
def isIdentChar (c : Char) : Bool := c.isAlpha || c.isDigit || c == '_'

/-- Classify a maximal identifier-shaped word as keyword, literal or name. -/
def classifyWord (w : String) : Tok :=
  if w == "True" then Tok.tTrue
  else if w == "False" then Tok.tFalse
  else if w == "and" then Tok.tAnd
  else if w == "or" then Tok.tOr
  else if w == "not" then Tok.tNot
  else Tok.tId w

/-- Tokenizer for the selector fragment: spaces, parentheses and
identifier-shaped words (maximal munch, exactly as Python's tokenizer forms
NAME tokens, so `Falsein` is one name, not `False` + `in`).  Any other
character is a syntax error in this fragment. -/
def tokenizeSelF : ℕ → List Char → Option (List Tok)
  | _, [] => some []
  | 0, _ :: _ => none
  | fuel+1, c :: cs =>
    if c == ' ' || c == '\t' then tokenizeSelF fuel cs
    else if c == '(' then (tokenizeSelF fuel cs).map (Tok.tLParen :: ·)
    else if c == ')' then (tokenizeSelF fuel cs).map (Tok.tRParen :: ·)
    else if c.isAlpha || c == '_' then
      let w := c :: cs.takeWhile isIdentChar
      (tokenizeSelF fuel (cs.dropWhile isIdentChar)).map (classifyWord (String.mk w) :: ·)
    else none

/-- Tokenize a whole selector string (fuel = length always suffices: every
step consumes at least the head character). -/
def tokenizeSel (l : List Char) : Option (List Tok) := tokenizeSelF l.length l

/-- Abstract syntax of a selector expression: literals, names, `not`,
`and`, `or`. -/
inductive BExpr where
  | lit (b : Bool) : BExpr
  | evar (x : String) : BExpr
  | enot (e : BExpr) : BExpr
  | eand (a b : BExpr) : BExpr
  | eor (a b : BExpr) : BExpr
deriving DecidableEq, Repr

mutual

/-- `or`-level of the grammar (lowest precedence, left associative). -/
def parseOrE : ℕ → List Tok → Option (BExpr × List Tok)
  | 0, _ => none
  | fuel+1, toks => do
      let (a, rest) ← parseAndE fuel toks
      parseOrTail fuel a rest

def parseOrTail : ℕ → BExpr → List Tok → Option (BExpr × List Tok)
  | 0, _, _ => none
  | fuel+1, a, Tok.tOr :: rest => do
      let (b, rest2) ← parseAndE fuel rest
      parseOrTail fuel (BExpr.eor a b) rest2
  | _+1, a, rest => some (a, rest)

/-- `and`-level of the grammar. -/
def parseAndE : ℕ → List Tok → Option (BExpr × List Tok)
  | 0, _ => none
  | fuel+1, toks => do
      let (a, rest) ← parseNotE fuel toks
      parseAndTail fuel a rest

def parseAndTail : ℕ → BExpr → List Tok → Option (BExpr × List Tok)
  | 0, _, _ => none
  | fuel+1, a, Tok.tAnd :: rest => do
      let (b, rest2) ← parseNotE fuel rest
      parseAndTail fuel (BExpr.eand a b) rest2
  | _+1, a, rest => some (a, rest)

/-- `not`-level of the grammar. -/
def parseNotE : ℕ → List Tok → Option (BExpr × List Tok)
  | 0, _ => none
  | fuel+1, Tok.tNot :: rest =>
      (parseNotE fuel rest).map (fun e => (BExpr.enot e.1, e.2))
  | fuel+1, toks => parseAtomE fuel toks

/-- Atoms: literals, names, parenthesized expressions. -/
def parseAtomE : ℕ → List Tok → Option (BExpr × List Tok)
  | 0, _ => none
  | _+1, Tok.tTrue :: rest => some (BExpr.lit true, rest)
  | _+1, Tok.tFalse :: rest => some (BExpr.lit false, rest)
  | _+1, Tok.tId x :: rest => some (BExpr.evar x, rest)
  | fuel+1, Tok.tLParen :: rest => do
      let (e, rest2) ← parseOrE fuel rest
      match rest2 with
      | Tok.tRParen :: rest3 => some (e, rest3)
      | _ => none
  | _+1, _ => none

end

/-- Evaluate a selector expression left to right with Python's
short-circuiting; referencing a name absent from the namespace raises
`NameError` carrying that name (the first one reached in evaluation
order, exactly as `eval` raises). -/
def evalBExpr (ns : List (String × Bool)) : BExpr → Except String Bool
  | BExpr.lit b => Except.ok b
  | BExpr.evar x =>
      match alookup ns x with
      | some b => Except.ok b
      | none => Except.error x
  | BExpr.enot e => do
      let v ← evalBExpr ns e
      pure (!v)
  | BExpr.eand a b => do
      let va ← evalBExpr ns a
      if va then evalBExpr ns b else pure false
  | BExpr.eor a b => do
      let va ← evalBExpr ns a
      if va then pure true else evalBExpr ns b

/-- Errors `eval` can raise on a selector string. -/
inductive PyErr where
  | nameError (missing : String) : PyErr
  | syntaxError : PyErr
deriving DecidableEq, Repr

instance {ε α : Type} [DecidableEq ε] [DecidableEq α] : DecidableEq (Except ε α)
  | Except.ok a, Except.ok b =>
      if h : a = b then isTrue (by rw [h])
      else isFalse (fun hh => h (Except.ok.inj hh))
  | Except.error a, Except.error b =>
      if h : a = b then isTrue (by rw [h])
      else isFalse (fun hh => h (Except.error.inj hh))
  | Except.ok _, Except.error _ => isFalse (fun hh => Except.noConfusion hh)
  | Except.error _, Except.ok _ => isFalse (fun hh => Except.noConfusion hh)

/-- Modelled from the spec: Python `eval` (an external interpreter)
restricted to the selector boolean grammar of §4.1 (identifiers,
`and`/`or`/`not`, literals; the comparison forms are not needed by the
claims).  Compilation happens first, so syntax errors precede name errors;
evaluation then proceeds left to right with short-circuiting. -/
def pyEval (s : String) (ns : List (String × Bool)) : Except PyErr Bool :=
  match tokenizeSel s.data with
  | none => Except.error PyErr.syntaxError
  | some toks =>
    match parseOrE (4 * (toks.length + 1)) toks with
    | some (e, []) =>
        match evalBExpr ns e with
        | Except.ok b => Except.ok b
        | Except.error x => Except.error (PyErr.nameError x)
    | _ => Except.error PyErr.syntaxError

/-- `parseNameNotFound`: the source extracts the variable name back out of
the NameError message "name 'var' is not defined" with the regex `'(.+?)'`;
identifiers contain no quote character, so the roundtrip is the identity on
the name carried by the error. -/
def parseNameNotFound (missing : String) : String := missing

/-- `eval_selector`: evaluate the selector string; on a NameError, warn and
retry after *textually* replacing every occurrence of the missing name by
"False" (`str.replace`).  Python's recursion is unbounded, so the model
takes fuel; fuel exhaustion is mapped, like a syntax error, to `none`
(an exception escaping `eval_selector`, caught only by the caller's bare
`except`). -/
def eval_selector : ℕ → String → List (String × Bool) → Option Bool
  | 0, _, _ => none
  | fuel+1, s, ns =>
    match pyEval s ns with
    | Except.ok b => some b
    | Except.error (PyErr.nameError e) =>
        eval_selector fuel (pyReplace s (parseNameNotFound e) ("False")) ns
    | Except.error PyErr.syntaxError => none

/-- Python `str.rstrip()` on a character list (default whitespace set). -/
def rstripL (l : List Char) : List Char :=
  (l.reverse.dropWhile Char.isWhitespace).reverse

/-- Python `str.rstrip()`. -/
def rstripStr (s : String) : String := String.mk (rstripL s.data)

/-- Python `str.lstrip()` on a character list. -/
def lstripL (l : List Char) : List Char := l.dropWhile Char.isWhitespace

/-- Drop the final empty piece left by a trailing newline. -/
def dropLastEmpty : List String → List String
  | [] => []
  | [x] => if x.data.isEmpty then [] else [x]
  | x :: rest => x :: dropLastEmpty rest

/-- Python `str.splitlines()` restricted to LF newlines (the character set
handled is narrowed to `\n`; the claims' inputs contain no exotic newline). -/
def splitLines (s : String) : List String :=
  dropLastEmpty (splitOnChar '\n' s)

/-- The selector-line match.  The source matches the line against
`sel_pat = (.+?)\s*(#.*)?\[([^\[\]]+)\](?(2).*)$` through the external `re`
engine; the spec fixes its interface: the selector is the trailing bracket
pair, matched when no other bracket pair occurs on the line.  This model
implements exactly that class — one `[` and one `]`, the `]` closing after
the `[`, a non-empty condition between them — returning (group 1, group 3):
the kept content (the shortest non-empty prefix whose remainder up to the
`#`-comment, or up to the `[`, is whitespace) and the selector expression.
Without a comment marker the `]` must end the line; with one, trailing text
is allowed, per the conditional group. -/
def selMatch (line : String) : Option (String × String) :=
  let cs := line.data
  if cs.count '[' == 1 && cs.count ']' == 1 then
    match cs.dropWhile (· ≠ '[') with
    | _ :: rest2 =>
      let pre := cs.takeWhile (· ≠ '[')
      let cond := rest2.takeWhile (· ≠ ']')
      let post := (rest2.dropWhile (· ≠ ']')).drop 1
      if cond.isEmpty || pre.contains ']' then none
      else if pre.contains '#' then
        let pre2 := pre.takeWhile (· ≠ '#')
        let g1 := if (rstripL pre2).isEmpty then pre2.take 1 else rstripL pre2
        if g1.isEmpty then none
        else some (String.mk g1, String.mk cond)
      else
        let g1 := if (rstripL pre).isEmpty then pre.take 1 else rstripL pre
        if g1.isEmpty || !post.isEmpty then none
        else some (String.mk g1, String.mk cond)
    | [] => none
  else none

/-- Fuel given to `eval_selector` by the line filter (any bound large
enough for the concrete inputs; a first evaluation that succeeds or fails
with a syntax error never consumes more than one unit). -/
def selEvalFuel : ℕ := 1000

/-- Python `'\n'.join(lines)`. -/
def joinNL : List String → String
  | [] => ""
  | [x] => x
  | x :: rest => x ++ "\n" ++ joinNL rest

/-- The per-line loop of `select_lines`, carrying the 0-based line index
used in the error message. -/
def selectLinesGo (ns : List (String × Bool)) :
    ℕ → List String → Except String (List String)
  | _, [] => Except.ok []
  | i, rawLine :: rest =>
      let line := rstripStr rawLine
      let trailing_quote :=
        match line.data.getLast? with
        | some c => if c.toNat == 39 || c == '"' then String.mk [c] else ""
        | none => ""
      if (lstripL line.data).head? == some '#' then
        selectLinesGo ns (i+1) rest
      else
        match selMatch line with
        | some (g1, cond) =>
          match eval_selector selEvalFuel cond ns with
          | some b => do
              let kept ← selectLinesGo ns (i+1) rest
              pure (if b then (g1 ++ trailing_quote) :: kept else kept)
          | none =>
              Except.error ("Error: Invalid selector in meta.yaml line "
                ++ toString (i+1) ++ ":\n" ++ line ++ "\n")
        | none => do
            let kept ← selectLinesGo ns (i+1) rest
            pure (line :: kept)

/-- `select_lines`: split the text into lines, right-strip each, drop
comment-only lines, evaluate trailing bracketed selectors (keeping the
stripped content, with a trailing quote re-appended, iff the selector is
true), keep selector-free lines as stripped, and join with a final
newline.  A selector whose evaluation raises aborts with a line-numbered
error. -/
def select_lines (data : String) (ns : List (String × Bool)) :
    Except String String :=
  (selectLinesGo ns 0 (splitLines data)).map (fun kept => joinNL kept ++ "\n")

/-- The configuration slice consumed by the hash / build-identifier engine:
`config.variant.get('ignore_version', [])`, `config.hash_length`,
`config.filename_hashing` and `config.include_recipe`. -/
structure BuildConfig where
  variantIgnoreVersion : List String
  hash_length : ℕ
  filename_hashing : Bool
  include_recipe : Bool
deriving DecidableEq, Repr

/-- The slice of a `MetaData` object the hash engine reads: the parsed
document, the configuration snapshot, the recipe-directory enumeration
(`utils.rec_glob` + `filter_files` are filesystem collaborators; their
result — relative path and raw byte content per file — is a model input,
exactly what C1 holds fixed), whether the object has an on-disk path
(`self.path`), and the string `build_string_from_metadata` would
synthesize when `build/string` is unset (that synthesis consumes the
external MatchSpec dependency parser, so its result is a model input). -/
structure MetaDataM where
  meta : List (String × Val)
  config : BuildConfig
  recipeFiles : List (String × String)
  hasPath : Bool
  synthesizedBuildString : String

/-- Insert into a sorted list of strings. -/
def insertStrSorted (x : String) : List String → List String
  | [] => [x]
  | y :: rest => if x ≤ y then x :: y :: rest else y :: insertStrSorted x rest

/-- Python `sorted` on strings (insertion sort). -/
def insertionSortStr (l : List String) : List String :=
  l.foldr insertStrSorted []

mutual

/-- Deterministic serialization of a value, abstracting
`json.dumps(..., sort_keys=True)`: mapping entries are serialized and then
put in sorted order, so the output is a function of the (key-sorted)
content only.  String escaping is not reproduced; the development relies
only on the serialization being a deterministic function of the tree. -/
def jsonVal : Val → String
  | Val.vNone => "null"
  | Val.vBool b => if b then "true" else "false"
  | Val.vStr s => "\"" ++ s ++ "\""
  | Val.vList xs => "[" ++ joinComma (jsonList xs) ++ "]"
  | Val.vMap es => "\x7b" ++ joinComma (insertionSortStr (jsonEntries es)) ++ "\x7d"

def jsonList : List Val → List String
  | [] => []
  | x :: rest => jsonVal x :: jsonList rest

def jsonEntries : List (String × Val) → List String
  | [] => []
  | (k, v) :: rest => ("\"" ++ k ++ "\": " ++ jsonVal v) :: jsonEntries rest

end

/-- The build-section keys `_get_hash_contents` deletes before hashing:
`number` (so it can be bumped without changing the hash), then `string`,
`noarch`, `noarch_python`. -/
def hashIgnoredBuildKeys : List String :=
  [("number"), ("string"), ("noarch"), ("noarch_python")]

/-- One dependency string matches the ignore pattern: the source compiles
`'|'.join('exc[\s$]?.*')` and uses `re.match`, which anchors at the start;
both trailing groups may match empty, so the whole pattern reduces to a
prefix test against one of the excluded names.  (`re.match` on a
non-string requirement entry would raise; such entries never match.) -/
def excludeMatch (excludes : List String) (req : Val) : Bool :=
  match req with
  | Val.vStr s => excludes.any (fun exc => strStarts exc s)
  | _ => false

/-- `MetaData._get_hash_contents`: copy the `requirements` and `build`
sections (plus `source` when non-empty), drop ignored build requirements,
drop the four mutable build keys, drop the `build` section and the empty
`requirements.build`/`requirements.run` keys when empty, prune empty
top-level keys, and list the recipe files to fold into the hash (sorted,
minus `meta.yaml` and `run_test*`). -/
def _get_hash_contents (m : MetaDataM) : List (String × Val) × List String :=
  let req := get_section m.meta ("requirements")
  let build := get_section m.meta ("build")
  let composite : List (String × Val) :=
    [(("requirements"), Val.vMap req), (("build"), Val.vMap build)]
  let composite :=
    match alookup m.meta ("source") with
    | some sv => if pyTruthy sv then aset composite ("source") sv else composite
    | none => composite
  let buildReqs :=
    match alookup req ("build") with
    | some (Val.vList xs) => xs
    | _ => []
  let excludes := m.config.variantIgnoreVersion
  let buildReqs :=
    if !excludes.isEmpty then buildReqs.filter (fun r => !excludeMatch excludes r)
    else buildReqs
  let req2 := aset req ("build") (Val.vList buildReqs)
  let composite := aset composite ("requirements") (Val.vMap req2)
  let build2 := List.foldl aerase build hashIgnoredBuildKeys
  let composite :=
    if build2.isEmpty then aerase composite ("build")
    else aset composite ("build") (Val.vMap build2)
  let req3 := List.foldl
    (fun r key =>
      match alookup r key with
      | some v => if !pyTruthy v then aerase r key else r
      | none => r)
    req2 [("build"), ("run")]
  let composite := aset composite ("requirements") (Val.vMap req3)
  let file_paths : List String :=
    if m.hasPath && m.config.include_recipe &&
        pyTruthy (get_value m.meta ("build/include_recipe") (some (Val.vBool true))) then
      (m.recipeFiles.map Prod.fst).filter
        (fun f => !(f == "meta.yaml" || strStarts ("run_test") f))
    else []
  (trim_empty_keys composite, insertionSortStr file_paths)

/-- `MetaData._hash_dependencies`: sha1 over the serialized hash contents
followed by the raw bytes of each listed recipe file, formatted as `h` +
hex digest and truncated to `hash_length + 1` characters.  `sha1hex`
abstracts hashlib's hex digest of the full byte stream (hashlib is an
external collaborator; streaming updates equal hashing the concatenation). -/
def _hash_dependencies (sha1hex : String → String) (m : MetaDataM) : String :=
  let hc := _get_hash_contents m
  let stream := jsonVal (Val.vMap hc.1) ++
    String.join (hc.2.map (fun p => (alookup m.recipeFiles p).getD ("")))
  String.mk ((("h") ++ sha1hex stream).data.take (m.config.hash_length + 1))

/-- The document mutation C1 quantifies over: add or overwrite one key of
the `build` section, leaving every other part of the document alone. -/
def setBuildKey (m : MetaDataM) (k : String) (v : Val) : MetaDataM :=
  let b := Val.vMap (aset (get_section m.meta ("build")) k v)
  { m with meta := aset m.meta ("build") b }

/-- The dual mutation: remove one key of the `build` section. -/
def removeBuildKey (m : MetaDataM) (k : String) : MetaDataM :=
  let b := Val.vMap (aerase (get_section m.meta ("build")) k)
  { m with meta := aset m.meta ("build") b }

/-- Lowercase hex digit, as in the source's `[0-9a-f]` character class. -/
def isHexDigit (c : Char) : Bool := c.isDigit || ('a' ≤ c && c ≤ 'f')

/-- The regex `h[0-9a-f]{n}` matches at this position: the head is `h`
and at least `n` hex digits follow. -/
def hSegAt (n : ℕ) : List Char → Bool
  | c :: rest =>
      c == 'h' && (rest.take n).length == n && (rest.take n).all isHexDigit
  | [] => false

/-- `re.findall('h[0-9a-f]{n}', out) != []`: a match starts somewhere. -/
def findHashSeg (n : ℕ) : List Char → Bool
  | [] => false
  | c :: cs => hSegAt n (c :: cs) || findHashSeg n cs

/-- The scan of `re.sub('h[0-9a-f]{n}', repl, out)`, replacing every
leftmost non-overlapping match left to right; structural on fuel (one unit
per consumed character, so fuel = length always suffices). -/
def subHashSegF (n : ℕ) (repl : List Char) : ℕ → List Char → List Char
  | _, [] => []
  | 0, l => l
  | fuel+1, c :: cs =>
    if hSegAt n (c :: cs) then repl ++ subHashSegF n repl fuel (cs.drop n)
    else c :: subHashSegF n repl fuel cs

/-- `re.sub('h[0-9a-f]{n}', repl, out)`. -/
def subHashSeg (n : ℕ) (repl : List Char) (l : List Char) : List Char :=
  subHashSegF n repl l.length l

/-- Python `s.rsplit('_', 1)`: the part before the last underscore and,
when an underscore exists, the part after it. -/
def rsplit1 (s : String) : String × Option String :=
  match s.data.reverse.dropWhile (· ≠ '_') with
  | _ :: pre => (String.mk pre.reverse,
                 some (String.mk (s.data.reverse.takeWhile (· ≠ '_')).reverse))
  | [] => (s, none)

/-- Python `int(s)` succeeds: optional surrounding whitespace, an optional
sign, then at least one digit. -/
def isPyInt (s : String) : Bool :=
  let t := lstripL (rstripL s.data)
  let t2 := match t with
            | c :: rest => if c == '+' || c == '-' then rest else t
            | [] => t
  !t2.isEmpty && t2.all Char.isDigit

/-- `check_bad_chrs`: the characters rejected for a field. -/
def bad_chrs (field : String) : List Char :=
  let base := "=@#$%^&*:;\"\x27\\|<>?/ ".data
  let base2 :=
    if field == "package/version" || field == "build/string" then base ++ ['-']
    else base
  if field != "package/version" then base2 ++ ['!'] else base2

/-- `check_bad_chrs` as a predicate: `true` when the value is clean (the
source exits otherwise). -/
def checkBadChrsOk (s field : String) : Bool :=
  (bad_chrs field).all (fun c => !s.data.contains c)

/-- `MetaData.build_id`: start from the explicit `build/string` (validated)
or the synthesized build string; when filename hashing is enabled, either
substitute the computed hash for the `h`+hex segments already embedded, or
splice the hash next to the build-number suffix found by `rsplit('_', 1)`,
re-appending the trailing token. -/
def build_id (sha1hex : String → String) (m : MetaDataM) :
    Except String String :=
  let outV := get_value m.meta ("build/string") none
  let out0E : Except String String :=
    if pyTruthy outV then
      match outV with
      | Val.vStr s =>
          if checkBadChrsOk s ("build/string") then Except.ok s
          else Except.error ("Error: bad character in build/string: " ++ s)
      | _ => Except.error ("build/string must be a string")
    else Except.ok m.synthesizedBuildString
  match out0E with
  | Except.error e => Except.error e
  | Except.ok out0 =>
      if m.config.filename_hashing then
        let h := _hash_dependencies sha1hex m
        if findHashSeg m.config.hash_length out0.data then
          Except.ok (String.mk (subHashSeg m.config.hash_length h.data out0.data))
        else
          let pt := rsplit1 out0
          let out1 := if isPyInt pt.1 then h ++ "_" ++ pt.1 else pt.1 ++ h
          match pt.2 with
          | some t => Except.ok (out1 ++ "_" ++ t)
          | none => Except.ok out1
      else Except.ok out0

/-- Association lookup with an arbitrary (decidable) key type, for the
descriptor-keyed `output_metadata_map`. -/
def plookup {κ α : Type} [DecidableEq κ] : List (κ × α) → κ → Option α
  | [], _ => none
  | (k2, v) :: rest, k => if k2 = k then some v else plookup rest k

/-- One output descriptor as `toposort` consults it: the `name` field and
the optional `type` tag of the output dict. -/
structure OutDesc where
  name : String
  otype : Option String
deriving DecidableEq, Repr

/-- `output_d.get('type', 'conda') == 'conda'`. -/
def isCondaType (d : OutDesc) : Bool := (d.otype.getD ("conda")) == "conda"

/-- Python `==` between a string and an int is always `False`; the
endorder re-append loop of `toposort` compares each descriptor's `name`
(a string) with a stored integer index. -/
def pyStrEqInt (_s : String) (_n : ℕ) : Bool := false

/-- The dependency names `toposort` extracts for one output: every entry of
`output_m.get_value('requirements/<phase>', [])`, cut at the first space
(`run_dep.split(' ')[0]`).  A non-string entry would make `split` raise;
such entries contribute nothing. -/
def depHeads (meta : List (String × Val)) (phase : String) : List String :=
  match get_value meta (("requirements/") ++ phase) (some (Val.vList [])) with
  | Val.vList xs => xs.filterMap (fun x =>
      match x with
      | Val.vStr s => some ((splitOnChar ' ' s).headD (""))
      | _ => none)
  | _ => []

/-- `these_packages`: the names of the conda-typed outputs. -/
def thesePackages (outs : List (OutDesc × List (String × Val))) : List String :=
  (outs.filter (fun o => isCondaType o.1)).map (fun o => o.1.name)

/-- The enumeration loop of `toposort`: `topodict` maps each conda output
name to its dependency names restricted to `these_packages` (a Python
`set`, modelled as a first-insertion-ordered deduplicated list), and
`endorder` collects the *indices* of the non-conda outputs. -/
def buildTopoAux (these : List String) (phase : String) :
    List (OutDesc × List (String × Val)) → ℕ →
    List (String × List String) → List ℕ →
    (List (String × List String)) × List ℕ
  | [], _, topodict, endorder => (topodict, endorder)
  | o :: rest, idx, topodict, endorder =>
      if isCondaType o.1 then
        let deps := List.foldl
          (fun acc d => if acc.contains d then acc else acc ++ [d]) []
          ((depHeads o.2 phase).filter (fun d => these.contains d))
        buildTopoAux these phase rest (idx+1) (aset topodict o.1.name deps) endorder
      else
        buildTopoAux these phase rest (idx+1) topodict (endorder ++ [idx])

/-- First pending node whose recorded dependencies are all emitted. -/
def extractReady (done : List String) :
    List (String × List String) →
    Option ((String × List String) × List (String × List String))
  | [] => none
  | e :: rest =>
      if e.2.all (fun d => done.contains d) then some (e, rest)
      else (extractReady done rest).map (fun er => (er.1, e :: er.2))

/-- The sort loop behind `_toposort`, with fuel (one unit per emitted
node); `none` when no pending node is ready (a dependency cycle). -/
def topoAux : List (String × List String) → List String → ℕ → Option (List String)
  | [], done, _ => some done.reverse
  | _ :: _, _, 0 => none
  | pending, done, fuel+1 =>
      match extractReady done pending with
      | none => none
      | some er => topoAux er.2 (er.1.1 :: done) fuel

/-- Modelled from the spec: conda's `_toposort` (imported from
`conda_interface`, an external collaborator).  Per §4.6 it is a standard
dependency-respecting topological sort of the name → dependency-set map,
and a cycle among build-phase requirements is a hard error. -/
def _toposort (topodict : List (String × List String)) : Option (List String) :=
  topoAux topodict [] topodict.length

/-- `toposort(output_metadata_map, phase)`: sort the conda-typed outputs by
`_toposort` over their declared interdependencies, rebuild the key list by
matching descriptor names against the sorted names, re-append the
`endorder` entries (whose name-vs-index comparison never succeeds), and
rebuild the map in that key order.  (The map is an insertion-ordered
association list; the claims assume descriptor names are distinct, as dict
keys make duplicates collapse.) -/
def toposort (outs : List (OutDesc × List (String × Val))) (phase : String) :
    Option (List (OutDesc × List (String × Val))) :=
  let td := buildTopoAux (thesePackages outs) phase outs 0 [] []
  match _toposort td.1 with
  | none => none
  | some topo_order =>
      let allKeys := outs.map Prod.fst
      let keys := topo_order.flatMap (fun pkg => allKeys.filter (fun k => k.name == pkg))
      let keys2 := keys ++ td.2.flatMap (fun idx => allKeys.filter (fun k => pyStrEqInt k.name idx))
      some (keys2.filterMap (fun k => (plookup outs k).map (fun mv => (k, mv))))

/-- Outcome of `parse_until_resolved`: the fatal `sys.exit` listing the
still-unresolved names, or successful resolution (after which the final
strict parse has run). -/
inductive ResolveOutcome where
  | fatal (names : Finset String) : ResolveOutcome
  | resolved : ResolveOutcome
deriving DecidableEq

/-- The loop of `parse_until_resolved` over the sets of undefined jinja
variables.  `seq i` is the set recorded by the (i+1)-th permissive
`parse_again` — the jinja renderer is an external collaborator, so the
whole trajectory is the model input.  `undef` is the local
`undefined_jinja_vars` (initially the empty tuple), `i` counts parses so
far, and the trace records one flag per `parse_again` call (`true` =
`permit_undefined_jinja`).  The loop re-parses exactly while the previous
set differs from the current one; on stabilization it exits fatally if the
set is non-empty and otherwise performs the one final strict parse.  The
Python loop has no bound, so the model takes fuel (`none` = still
looping). -/
def resolveAux (seq : ℕ → Finset String) :
    Finset String → ℕ → ℕ → Option (List Bool × ResolveOutcome)
  | _, _, 0 => none
  | undef, i, fuel+1 =>
    if undef = seq i then
      if undef = ∅ then some ([false], ResolveOutcome.resolved)
      else some ([], ResolveOutcome.fatal undef)
    else
      (resolveAux seq (seq i) (i+1) fuel).map (fun tr => (true :: tr.1, tr.2))

/-- `MetaData.parse_until_resolved`: the initial permissive parse followed
by the comparison loop of `resolveAux`. -/
def parse_until_resolved (seq : ℕ → Finset String) (fuel : ℕ) :
    Option (List Bool × ResolveOutcome) :=
  (resolveAux seq ∅ 0 fuel).map (fun tr => (true :: tr.1, tr.2))

/-- No element of the sequence is a mapping (the shape under which
`_trim_None_strings` takes its string-filter branch and never recurses
into the elements). -/
def noMapList : List Val → Bool
  | [] => true
  | Val.vMap _ :: _ => false
  | _ :: rest => noMapList rest

/-- Whether a value is a mapping (`hasattr(value, 'keys')`). -/
def isVMap : Val → Bool
  | Val.vMap _ => true
  | _ => false

mutual

/-- Homogeneity of a value, the shape discipline `_trim_None_strings`
assumes: every sequence anywhere in the value consists entirely of
mappings (each recursively homogeneous) or contains no mapping at all. -/
def homogVal : Val → Bool
  | Val.vNone => true
  | Val.vBool _ => true
  | Val.vStr _ => true
  | Val.vMap es => homogEntries es
  | Val.vList xs => homogMapList xs || noMapList xs

/-- Homogeneity of every value of a mapping. -/
def homogEntries : List (String × Val) → Bool
  | [] => true
  | (_, v) :: rest => homogVal v && homogEntries rest

/-- Every element is a mapping with homogeneous values. -/
def homogMapList : List Val → Bool
  | [] => true
  | Val.vMap m :: rest => homogEntries m && homogMapList rest
  | _ :: _ => false

end

/-! ## Association-list lemmas -/

theorem alookup_aset_self {α : Type} (l : List (String × α)) (k : String) (v : α) :
    alookup (aset l k v) k = some v := by
  induction l with
  | nil => simp [aset, alookup]
  | cons e rest ih =>
      obtain ⟨k2, v2⟩ := e
      by_cases h : k2 = k
      · simp [aset, h, alookup]
      · simp [aset, h, alookup, ih]

theorem alookup_aset_ne {α : Type} (l : List (String × α)) (k k2 : String) (v : α)
    (h : k2 ≠ k) : alookup (aset l k v) k2 = alookup l k2 := by
  induction l with
  | nil =>
      simp only [aset, alookup]
      rw [if_neg (fun hh => h hh.symm)]
  | cons e rest ih =>
      obtain ⟨ke, ve⟩ := e
      by_cases he : ke = k
      · subst he
        simp only [aset, if_pos rfl, alookup]
        rw [if_neg (fun hh => h hh.symm), if_neg (fun hh => h hh.symm)]
      · simp only [aset, if_neg he, alookup]
        by_cases he2 : ke = k2
        · simp [he2]
        · simp [he2, ih]

theorem aerase_nil {α : Type} (k : String) : aerase ([] : List (String × α)) k = [] := rfl

theorem aerase_cons {α : Type} (ke : String) (ve : α) (rest : List (String × α)) (k : String) :
    aerase ((ke, ve) :: rest) k =
      if ke = k then aerase rest k else (ke, ve) :: aerase rest k := by
  by_cases h : ke = k <;> simp [aerase, List.filter_cons, h]

theorem aerase_aset_self {α : Type} (l : List (String × α)) (k : String) (v : α) :
    aerase (aset l k v) k = aerase l k := by
  induction l with
  | nil => simp [aset, aerase_cons, aerase_nil]
  | cons e rest ih =>
      obtain ⟨ke, ve⟩ := e
      by_cases he : ke = k
      · subst he
        simp [aset, aerase_cons]
      · simp [aset, he, aerase_cons, ih]

theorem aerase_aset_ne {α : Type} (l : List (String × α)) (k k2 : String) (v : α)
    (h : k ≠ k2) : aerase (aset l k v) k2 = aset (aerase l k2) k v := by
  induction l with
  | nil => simp [aset, aerase_cons, aerase_nil, h]
  | cons e rest ih =>
      obtain ⟨ke, ve⟩ := e
      by_cases he : ke = k
      · subst he
        simp [aset, aerase_cons, h, ih]
      · by_cases he2 : ke = k2
        · subst he2
          simp [aset, he, aerase_cons, ih]
        · simp [aset, he, he2, aerase_cons, ih]

theorem aerase_aerase_self {α : Type} (l : List (String × α)) (k : String) :
    aerase (aerase l k) k = aerase l k := by
  simp [aerase, List.filter_filter]

theorem aerase_comm {α : Type} (l : List (String × α)) (k k2 : String) :
    aerase (aerase l k) k2 = aerase (aerase l k2) k := by
  simp only [aerase, List.filter_filter]
  apply List.filter_congr
  intro a _
  simp [Bool.and_comm]
theorem foldl_aerase_aset {α : Type} (ks : List String) (l : List (String × α))
    (k : String) (v : α) (hk : k ∈ ks) :
    List.foldl aerase (aset l k v) ks = List.foldl aerase l ks := by
  induction ks generalizing l with
  | nil => cases hk
  | cons a rest ih =>
      by_cases ha : a = k
      · subst ha
        simp [List.foldl, aerase_aset_self]
      · rcases List.mem_cons.mp hk with h1 | h2
        · exact absurd h1.symm ha
        · simp only [List.foldl]
          rw [aerase_aset_ne l k a v (fun hh => ha hh.symm)]
          exact ih (aerase l a) h2

theorem foldl_aerase_aerase {α : Type} (ks : List String) (l : List (String × α))
    (k : String) (hk : k ∈ ks) :
    List.foldl aerase (aerase l k) ks = List.foldl aerase l ks := by
  induction ks generalizing l with
  | nil => cases hk
  | cons a rest ih =>
      by_cases ha : a = k
      · subst ha
        simp [List.foldl, aerase_aerase_self]
      · rcases List.mem_cons.mp hk with h1 | h2
        · exact absurd h1.symm ha
        · simp only [List.foldl]
          rw [aerase_comm l k a]
          exact ih (aerase l a) h2

/-! ## Claim C10: YAML 1.1 boolean coercion in `get_value` -/

/-- C10: for every field whose stored value is a string equal,
case-insensitively, to one of "y"/"on"/"true"/"yes" (resp.
"n"/"no"/"false"/"off"), `MetaData.get_value` returns the boolean True
(resp. False) rather than the stored string, and every other string value
is returned unchanged. -/
theorem get_value_yaml_bool_coercion (meta : List (String × Val))
    (field sect key s : String)
    (hsplit : splitOnChar '/' field = [sect, key])
    (hstored : alookup (get_section meta sect) key = some (Val.vStr s)) :
    get_value meta field none =
      (if trues.contains (lowerStr s) then Val.vBool true
       else if falses.contains (lowerStr s) then Val.vBool false
       else Val.vStr s) := by
  unfold get_value
  rw [hsplit]
  simp [hstored, coerceYamlBool]

/-- Witness for C10 at a concrete document: `build/skip` stored as the
string "YES" comes back as True, `build/noarch` stored as "oFF" comes back
as False, and `build/string` stored as "py27_0" comes back unchanged. -/
theorem get_value_yaml_bool_coercion_witness :
    get_value [(("build"), Val.vMap [(("skip"), Val.vStr ("YES")),
                                     (("noarch"), Val.vStr ("oFF")),
                                     (("string"), Val.vStr ("py27_0"))])]
        ("build/skip") none = Val.vBool true ∧
    get_value [(("build"), Val.vMap [(("skip"), Val.vStr ("YES")),
                                     (("noarch"), Val.vStr ("oFF")),
                                     (("string"), Val.vStr ("py27_0"))])]
        ("build/noarch") none = Val.vBool false ∧
    get_value [(("build"), Val.vMap [(("skip"), Val.vStr ("YES")),
                                     (("noarch"), Val.vStr ("oFF")),
                                     (("string"), Val.vStr ("py27_0"))])]
        ("build/string") none = Val.vStr ("py27_0") := by
  refine ⟨?_, ?_, ?_⟩
  · rw [get_value_yaml_bool_coercion _ _ ("build") ("skip") ("YES") (by decide)
        (by decide)]
    decide
  · rw [get_value_yaml_bool_coercion _ _ ("build") ("noarch") ("oFF") (by decide)
        (by decide)]
    decide
  · rw [get_value_yaml_bool_coercion _ _ ("build") ("string") ("py27_0") (by decide)
        (by decide)]
    decide

theorem alookup_aerase_ne {α : Type} (l : List (String × α)) (k k2 : String)
    (h : k2 ≠ k) : alookup (aerase l k) k2 = alookup l k2 := by
  induction l with
  | nil => rfl
  | cons e rest ih =>
      obtain ⟨ke, ve⟩ := e
      rw [aerase_cons]
      by_cases he : ke = k
      · subst he
        rw [if_pos rfl, ih]
        simp only [alookup]
        rw [if_neg (fun hh => h hh.symm)]
      · rw [if_neg he]
        simp only [alookup]
        by_cases he2 : ke = k2
        · simp [he2]
        · simp [he2, ih]

/-! ## Claim C1: the content hash ignores the mutable build keys -/

theorem getHashContents_setBuildKey (m : MetaDataM) (k : String) (v : Val)
    (hk : k ∈ hashIgnoredBuildKeys) :
    _get_hash_contents (setBuildKey m k v) = _get_hash_contents m := by
  have hkcases : k = ("number") ∨ k = ("string") ∨ k = ("noarch") ∨
      k = ("noarch_python") := by
    simpa [hashIgnoredBuildKeys] using hk
  have hkinc : k ≠ ("include_recipe") := by
    rcases hkcases with h | h | h | h <;> subst h <;> decide
  have hmeta : (setBuildKey m k v).meta =
      aset m.meta ("build") (Val.vMap (aset (get_section m.meta ("build")) k v)) := rfl
  have hreq : get_section (setBuildKey m k v).meta ("requirements") =
      get_section m.meta ("requirements") := by
    unfold get_section
    rw [hmeta, alookup_aset_ne _ _ _ _ (by decide)]
  have hbuild : get_section (setBuildKey m k v).meta ("build") =
      aset (get_section m.meta ("build")) k v := by
    unfold get_section
    rw [hmeta, alookup_aset_self]
    rfl
  have hsrc : alookup (setBuildKey m k v).meta ("source") = alookup m.meta ("source") := by
    rw [hmeta, alookup_aset_ne _ _ _ _ (by decide)]
  have hinc : get_value (setBuildKey m k v).meta ("build/include_recipe")
      (some (Val.vBool true)) =
      get_value m.meta ("build/include_recipe") (some (Val.vBool true)) := by
    unfold get_value
    rw [show splitOnChar '/' ("build/include_recipe") =
        [("build"), ("include_recipe")] from by decide]
    have : alookup (get_section (setBuildKey m k v).meta ("build")) ("include_recipe") =
        alookup (get_section m.meta ("build")) ("include_recipe") := by
      rw [hbuild, alookup_aset_ne _ _ _ _ (Ne.symm hkinc)]
    simp [this]
  have hfold : List.foldl aerase (aset (get_section m.meta ("build")) k v)
      hashIgnoredBuildKeys =
      List.foldl aerase (get_section m.meta ("build")) hashIgnoredBuildKeys :=
    foldl_aerase_aset _ _ _ _ hk
  have hcfg : (setBuildKey m k v).config = m.config := rfl
  have hrf : (setBuildKey m k v).recipeFiles = m.recipeFiles := rfl
  have hhp : (setBuildKey m k v).hasPath = m.hasPath := rfl
  simp only [_get_hash_contents, hreq, hbuild, hsrc, hinc, hfold, hcfg, hrf, hhp]
  cases hS : alookup m.meta ("source") with
  | none => split <;> simp [aset, aerase_cons, aerase_nil]
  | some sv =>
      by_cases ht : pyTruthy sv <;>
        simp [ht] <;> split <;> simp [aset, aerase_cons, aerase_nil]

theorem getHashContents_removeBuildKey (m : MetaDataM) (k : String)
    (hk : k ∈ hashIgnoredBuildKeys) :
    _get_hash_contents (removeBuildKey m k) = _get_hash_contents m := by
  have hkcases : k = ("number") ∨ k = ("string") ∨ k = ("noarch") ∨
      k = ("noarch_python") := by
    simpa [hashIgnoredBuildKeys] using hk
  have hkinc : k ≠ ("include_recipe") := by
    rcases hkcases with h | h | h | h <;> subst h <;> decide
  have hmeta : (removeBuildKey m k).meta =
      aset m.meta ("build") (Val.vMap (aerase (get_section m.meta ("build")) k)) := rfl
  have hreq : get_section (removeBuildKey m k).meta ("requirements") =
      get_section m.meta ("requirements") := by
    unfold get_section
    rw [hmeta, alookup_aset_ne _ _ _ _ (by decide)]
  have hbuild : get_section (removeBuildKey m k).meta ("build") =
      aerase (get_section m.meta ("build")) k := by
    unfold get_section
    rw [hmeta, alookup_aset_self]
    rfl
  have hsrc : alookup (removeBuildKey m k).meta ("source") = alookup m.meta ("source") := by
    rw [hmeta, alookup_aset_ne _ _ _ _ (by decide)]
  have hinc : get_value (removeBuildKey m k).meta ("build/include_recipe")
      (some (Val.vBool true)) =
      get_value m.meta ("build/include_recipe") (some (Val.vBool true)) := by
    unfold get_value
    rw [show splitOnChar '/' ("build/include_recipe") =
        [("build"), ("include_recipe")] from by decide]
    have : alookup (get_section (removeBuildKey m k).meta ("build")) ("include_recipe") =
        alookup (get_section m.meta ("build")) ("include_recipe") := by
      rw [hbuild, alookup_aerase_ne _ _ _ (Ne.symm hkinc)]
    simp [this]
  have hfold : List.foldl aerase (aerase (get_section m.meta ("build")) k)
      hashIgnoredBuildKeys =
      List.foldl aerase (get_section m.meta ("build")) hashIgnoredBuildKeys :=
    foldl_aerase_aerase _ _ _ hk
  have hcfg : (removeBuildKey m k).config = m.config := rfl
  have hrf : (removeBuildKey m k).recipeFiles = m.recipeFiles := rfl
  have hhp : (removeBuildKey m k).hasPath = m.hasPath := rfl
  simp only [_get_hash_contents, hreq, hbuild, hsrc, hinc, hfold, hcfg, hrf, hhp]
  cases hS : alookup m.meta ("source") with
  | none => split <;> simp [aset, aerase_cons, aerase_nil]
  | some sv =>
      by_cases ht : pyTruthy sv <;>
        simp [ht] <;> split <;> simp [aset, aerase_cons, aerase_nil]

/-- C1: holding the recipe files and retained requirements fixed, changing
only the build-section keys `number`, `string`, `noarch` or `noarch_python`
— whether by setting them to any value or by removing them — leaves
`_get_hash_contents` unchanged (the four keys are dropped from the build
section before serialization), and therefore `_hash_dependencies` returns
the identical hash string, for any digest function. -/
theorem hash_ignores_mutable_build_keys (sha1hex : String → String)
    (m : MetaDataM) (k : String) (v : Val) (hk : k ∈ hashIgnoredBuildKeys) :
    _get_hash_contents (setBuildKey m k v) = _get_hash_contents m ∧
    _get_hash_contents (removeBuildKey m k) = _get_hash_contents m ∧
    _hash_dependencies sha1hex (setBuildKey m k v) = _hash_dependencies sha1hex m ∧
    _hash_dependencies sha1hex (removeBuildKey m k) = _hash_dependencies sha1hex m := by
  have h1 := getHashContents_setBuildKey m k v hk
  have h2 := getHashContents_removeBuildKey m k hk
  refine ⟨h1, h2, ?_, ?_⟩
  · unfold _hash_dependencies
    rw [h1]
    rfl
  · unfold _hash_dependencies
    rw [h2]
    rfl

/-- Witness for C1 at a concrete document (explicit `build` section with a
number, string, noarch flags; a run requirement; a recipe file), with the
identity standing in for the digest function: bumping `build/number`,
rewriting `build/string` and deleting `build/noarch` all leave both the
hash contents and the hash unchanged. -/
theorem hash_ignores_mutable_build_keys_witness :
    ("number") ∈ hashIgnoredBuildKeys ∧
    (let m : MetaDataM :=
      { meta := [(("package"), Val.vMap [(("name"), Val.vStr ("pkg"))]),
                 (("build"), Val.vMap [(("number"), Val.vStr ("1")),
                                       (("string"), Val.vStr ("custom")),
                                       (("noarch"), Val.vStr ("python"))]),
                 (("requirements"), Val.vMap [(("run"),
                    Val.vList [Val.vStr ("python")])])],
        config := { variantIgnoreVersion := [], hash_length := 7,
                    filename_hashing := true, include_recipe := true },
        recipeFiles := [(("build.sh"), ("echo ok"))],
        hasPath := true, synthesizedBuildString := "0" }
     _hash_dependencies id (setBuildKey m ("number") (Val.vStr ("2"))) =
       _hash_dependencies id m ∧
     _hash_dependencies id (removeBuildKey m ("noarch")) =
       _hash_dependencies id m) := by
  refine ⟨by decide, ?_, ?_⟩
  · exact (hash_ignores_mutable_build_keys id _ ("number") (Val.vStr ("2"))
      (by decide)).2.2.1
  · exact (hash_ignores_mutable_build_keys id _ ("noarch") (Val.vStr (""))
      (by decide)).2.2.2

/-! ## Claim C4: the resolution loop terminates and fails/strict-parses correctly -/

theorem resolveAux_succ (seq : ℕ → Finset String) (undef : Finset String)
    (i fuel : ℕ) :
    resolveAux seq undef i (fuel+1) =
      if undef = seq i then
        if undef = ∅ then some ([false], ResolveOutcome.resolved)
        else some ([], ResolveOutcome.fatal undef)
      else
        (resolveAux seq (seq i) (i+1) fuel).map (fun tr => (true :: tr.1, tr.2)) :=
  rfl

theorem resolveAux_terminates (seq : ℕ → Finset String)
    (hmono : ∀ i, seq (i+1) ⊆ seq i) :
    ∀ fuel undef i, seq i ⊆ undef → undef.card < fuel →
      (resolveAux seq undef i fuel).isSome = true := by
  intro fuel
  induction fuel with
  | zero => intro undef i _ h; exact absurd h (Nat.not_lt_zero _)
  | succ f ih =>
      intro undef i hsub hcard
      rw [resolveAux_succ]
      by_cases he : undef = seq i
      · rw [if_pos he]
        split <;> simp
      · rw [if_neg he]
        have hss : seq i ⊂ undef :=
          HasSubset.Subset.ssubset_of_ne hsub (fun hh => he hh.symm)
        have hc2 : (seq i).card < undef.card := Finset.card_lt_card hss
        have hs := ih (seq i) (i+1) (hmono i) (by omega)
        cases hrec : resolveAux seq (seq i) (i+1) f with
        | none => rw [hrec] at hs; simp at hs
        | some tr => simp

theorem resolveAux_spec (seq : ℕ → Finset String) :
    ∀ fuel undef i t r, resolveAux seq undef i fuel = some (t, r) →
      (∀ S, r = ResolveOutcome.fatal S → S.Nonempty ∧ (∃ j, S = seq j) ∧ false ∉ t) ∧
      (r = ResolveOutcome.resolved → ∃ n, t = List.replicate n true ++ [false]) := by
  intro fuel
  induction fuel with
  | zero => intro undef i t r h; exact absurd h (by simp [resolveAux])
  | succ f ih =>
      intro undef i t r h
      rw [resolveAux_succ] at h
      by_cases he : undef = seq i
      · rw [if_pos he] at h
        by_cases hz : undef = ∅
        · rw [if_pos hz] at h
          simp only [Option.some.injEq, Prod.mk.injEq] at h
          obtain ⟨ht, hr⟩ := h
          constructor
          · intro S hS
            rw [← hr] at hS
            cases hS
          · intro _
            exact ⟨0, by simp [← ht]⟩
        · rw [if_neg hz] at h
          simp only [Option.some.injEq, Prod.mk.injEq] at h
          obtain ⟨ht, hr⟩ := h
          constructor
          · intro S hS
            rw [← hr] at hS
            cases hS
            exact ⟨Finset.nonempty_iff_ne_empty.mpr hz, ⟨i, he⟩, by simp [← ht]⟩
          · intro hres
            rw [← hr] at hres
            cases hres
      · rw [if_neg he] at h
        cases hrec : resolveAux seq (seq i) (i+1) f with
        | none => rw [hrec] at h; cases h
        | some tr =>
            rw [hrec] at h
            obtain ⟨t2, r2⟩ := tr
            simp at h
            obtain ⟨ht, hr⟩ := h
            obtain ⟨hfat, hres⟩ := ih (seq i) (i+1) t2 r2 hrec
            subst hr
            constructor
            · intro S hS
              obtain ⟨h1, h2, h3⟩ := hfat S hS
              exact ⟨h1, h2, by simp [← ht, h3]⟩
            · intro hres2
              obtain ⟨n, hn⟩ := hres hres2
              exact ⟨n + 1, by simp [← ht, hn, List.replicate_succ]⟩

/-- C4: the re-parse loop of `parse_until_resolved` compares each
unresolved-variable set with the previous one and re-parses only while
they differ.  Provided re-parsing never grows the unresolved set (the
spec's no-unbounded-growth condition; the sets come from the external
jinja renderer), the loop terminates within `card (seq 0) + 2` parses:
either it stabilizes on a non-empty set and exits fatally, reporting
exactly that stabilized set — with no strict parse performed — or it
stabilizes empty and performs exactly one final strict re-parse after the
permissive ones. -/
theorem parse_until_resolved_spec (seq : ℕ → Finset String)
    (hmono : ∀ i, seq (i+1) ⊆ seq i) :
    ∃ t r, parse_until_resolved seq ((seq 0).card + 2) = some (t, r) ∧
      (∀ S, r = ResolveOutcome.fatal S →
        S.Nonempty ∧ (∃ j, S = seq j) ∧ false ∉ t) ∧
      (r = ResolveOutcome.resolved →
        ∃ n, t = List.replicate n true ++ [false]) := by
  have hsome : (resolveAux seq ∅ 0 ((seq 0).card + 2)).isSome = true := by
    have hstep : (seq 0).card + 2 = ((seq 0).card + 1) + 1 := rfl
    rw [hstep, resolveAux_succ]
    by_cases he : (∅ : Finset String) = seq 0
    · rw [if_pos he]
      split <;> simp
    · rw [if_neg he]
      have hs := resolveAux_terminates seq hmono ((seq 0).card + 1) (seq 0) 1
        (hmono 0) (by omega)
      cases hrec : resolveAux seq (seq 0) 1 ((seq 0).card + 1) with
      | none => rw [hrec] at hs; simp at hs
      | some tr => simp
  obtain ⟨⟨t0, r0⟩, h0⟩ := Option.isSome_iff_exists.mp hsome
  obtain ⟨hfat, hres⟩ := resolveAux_spec seq _ ∅ 0 t0 r0 h0
  refine ⟨true :: t0, r0, ?_, ?_, ?_⟩
  · simp [parse_until_resolved, h0]
  · intro S hS
    obtain ⟨h1, h2, h3⟩ := hfat S hS
    exact ⟨h1, h2, by simp [h3]⟩
  · intro hres2
    obtain ⟨n, hn⟩ := hres hres2
    exact ⟨n + 1, by simp [hn, List.replicate_succ]⟩

/-- Witness for C4 on a concrete trajectory (one variable resolved by the
second parse): the loop terminates with the resolved outcome and a trace
of permissive parses followed by exactly one strict parse. -/
theorem parse_until_resolved_spec_witness :
    ∃ t r, parse_until_resolved
        (fun i => if i = 0 then ({("a")} : Finset String) else ∅)
        ((({("a")} : Finset String)).card + 2) = some (t, r) ∧
      (∀ S, r = ResolveOutcome.fatal S →
        S.Nonempty ∧
        (∃ j, S = (fun i => if i = 0 then ({("a")} : Finset String) else ∅) j) ∧
        false ∉ t) ∧
      (r = ResolveOutcome.resolved →
        ∃ n, t = List.replicate n true ++ [false]) :=
  parse_until_resolved_spec _ (by intro i; cases i <;> simp)

/-! ## Claim C6: the git alias collapse -/

theorem alookup_aerase_self {α : Type} (l : List (String × α)) (k : String) :
    alookup (aerase l k) k = none := by
  induction l with
  | nil => rfl
  | cons e rest ih =>
      obtain ⟨ke, ve⟩ := e
      rw [aerase_cons]
      by_cases he : ke = k
      · simp [he, ih]
      · simp [alookup, he, ih]

/-- C6: for every source mapping, if two or more of `git_rev`, `git_branch`,
`git_tag` are non-empty, `_git_clean` fails with the `multiple git_revs`
message listing exactly the conflicting keys; otherwise it succeeds with a
mapping that contains neither `git_branch` nor `git_tag` and whose
`git_rev` equals whichever of the three keys was set. -/
theorem git_clean_spec (s : List (String × Val)) :
    (2 ≤ (gitConflictKeys s).length →
      _git_clean s = Except.error (gitErrMsg (gitConflictKeys s)) ∧
      ∀ k, k ∈ gitConflictKeys s ↔ (k ∈ git_rev_tags ∧ has_rev_tag s k)) ∧
    ((gitConflictKeys s).length ≤ 1 →
      ∃ r, _git_clean s = Except.ok r ∧
        alookup r ("git_branch") = none ∧
        alookup r ("git_tag") = none ∧
        (∀ k, k ∈ git_rev_tags → has_rev_tag s k →
          alookup r ("git_rev") = alookup s k)) := by
  constructor
  · intro hge
    refine ⟨by simp [_git_clean, hge], ?_⟩
    intro k
    simp [gitConflictKeys, List.mem_filter]
  · intro hle
    by_cases h2 : has_rev_tag s ("git_branch") <;>
      by_cases h3 : has_rev_tag s ("git_tag") <;>
      by_cases h1 : has_rev_tag s ("git_rev")
    -- 8 combinations, in goal order: (h2,h3,h1) = (+,+,+), (+,+,-),
    -- (+,-,+), (+,-,-), (-,+,+), (-,+,-), (-,-,+), (-,-,-)
    · exfalso; simp [gitConflictKeys, git_rev_tags, h1, h2, h3] at hle
    · exfalso; simp [gitConflictKeys, git_rev_tags, h1, h2, h3] at hle
    · exfalso; simp [gitConflictKeys, git_rev_tags, h1, h2, h3] at hle
    · -- only git_branch set
      refine ⟨aerase (aerase (aset s ("git_rev")
        ((alookup s ("git_branch")).getD (Val.vStr ("")))) ("git_branch"))
        ("git_tag"), ?_, ?_, ?_, ?_⟩
      · simp [_git_clean, gitConflictKeys, git_rev_tags, h1, h2, h3,
          List.foldl, git_rev_tags]
      · rw [alookup_aerase_ne _ _ _ (by decide), alookup_aerase_self]
      · rw [alookup_aerase_self]
      · intro k hk hkt
        have hkcases : k = ("git_rev") ∨ k = ("git_branch") ∨ k = ("git_tag") := by
          simpa [git_rev_tags] using hk
        rcases hkcases with h | h | h <;> subst h
        · exact absurd hkt h1
        · rw [alookup_aerase_ne _ _ _ (by decide),
              alookup_aerase_ne _ _ _ (by decide), alookup_aset_self]
          cases halk : alookup s ("git_branch") with
          | none => exfalso; rw [has_rev_tag, halk] at hkt; exact absurd hkt (by decide)
          | some v => simp
        · exact absurd hkt h3
    · exfalso; simp [gitConflictKeys, git_rev_tags, h1, h2, h3] at hle
    · -- only git_tag set
      refine ⟨aerase (aset (aerase s ("git_branch")) ("git_rev")
        ((alookup (aerase s ("git_branch")) ("git_tag")).getD (Val.vStr (""))))
        ("git_tag"), ?_, ?_, ?_, ?_⟩
      · simp [_git_clean, gitConflictKeys, git_rev_tags, h1, h2, h3, List.foldl]
      · rw [alookup_aerase_ne _ _ _ (by decide),
            alookup_aset_ne _ _ _ _ (by decide), alookup_aerase_self]
      · rw [alookup_aerase_self]
      · intro k hk hkt
        have hkcases : k = ("git_rev") ∨ k = ("git_branch") ∨ k = ("git_tag") := by
          simpa [git_rev_tags] using hk
        rcases hkcases with h | h | h <;> subst h
        · exact absurd hkt h1
        · exact absurd hkt h2
        · rw [alookup_aerase_ne _ _ _ (by decide), alookup_aset_self,
              alookup_aerase_ne _ _ _ (by decide)]
          cases halk : alookup s ("git_tag") with
          | none => exfalso; rw [has_rev_tag, halk] at hkt; exact absurd hkt (by decide)
          | some v => simp
    · -- only git_rev set
      refine ⟨aerase (aerase s ("git_branch")) ("git_tag"), ?_, ?_, ?_, ?_⟩
      · simp [_git_clean, gitConflictKeys, git_rev_tags, h1, h2, h3, List.foldl]
      · rw [alookup_aerase_ne _ _ _ (by decide), alookup_aerase_self]
      · rw [alookup_aerase_self]
      · intro k hk hkt
        have hkcases : k = ("git_rev") ∨ k = ("git_branch") ∨ k = ("git_tag") := by
          simpa [git_rev_tags] using hk
        rcases hkcases with h | h | h <;> subst h
        · rw [alookup_aerase_ne _ _ _ (by decide),
              alookup_aerase_ne _ _ _ (by decide)]
        · exact absurd hkt h2
        · exact absurd hkt h3
    · -- none set
      refine ⟨aerase (aerase s ("git_branch")) ("git_tag"), ?_, ?_, ?_, ?_⟩
      · simp [_git_clean, gitConflictKeys, git_rev_tags, h1, h2, h3, List.foldl]
      · rw [alookup_aerase_ne _ _ _ (by decide), alookup_aerase_self]
      · rw [alookup_aerase_self]
      · intro k hk hkt
        have hkcases : k = ("git_rev") ∨ k = ("git_branch") ∨ k = ("git_tag") := by
          simpa [git_rev_tags] using hk
        rcases hkcases with h | h | h <;> subst h
        · exact absurd hkt h1
        · exact absurd hkt h2
        · exact absurd hkt h3

/-- Witness for C6: Scenario B's document `source: (git_tag: "v1",
git_branch: "v1")` fails fatally naming both keys, and a document with
only `git_tag: "v1"` succeeds with `git_rev = "v1"` and no legacy keys. -/
theorem git_clean_spec_witness :
    (2 ≤ (gitConflictKeys [(("git_tag"), Val.vStr ("v1")),
                           (("git_branch"), Val.vStr ("v1"))]).length ∧
     _git_clean [(("git_tag"), Val.vStr ("v1")),
                 (("git_branch"), Val.vStr ("v1"))] =
       Except.error (gitErrMsg (gitConflictKeys
         [(("git_tag"), Val.vStr ("v1")), (("git_branch"), Val.vStr ("v1"))]))) ∧
    (∃ r, _git_clean [(("git_tag"), Val.vStr ("v1"))] = Except.ok r ∧
      alookup r ("git_branch") = none ∧
      alookup r ("git_tag") = none ∧
      (∀ k, k ∈ git_rev_tags →
        has_rev_tag [(("git_tag"), Val.vStr ("v1"))] k →
        alookup r ("git_rev") = alookup [(("git_tag"), Val.vStr ("v1"))] k)) := by
  constructor
  · exact ⟨by decide,
      ((git_clean_spec [(("git_tag"), Val.vStr ("v1")),
        (("git_branch"), Val.vStr ("v1"))]).1 (by decide)).1⟩
  · exact (git_clean_spec [(("git_tag"), Val.vStr ("v1"))]).2 (by decide)

/-! ## Claim C3: eval_selector and missing identifiers (code bug) -/

/-- C3 (code bug): `eval_selector` recovers from a NameError by *textual*
replacement (`str.replace`) of the missing name with "False", so a missing
identifier that occurs as a substring of a defined identifier corrupts the
expression.  On `"w or win"` with namespace `(win := True)` the only
missing identifier is `w`, and substituting False for it — the documented
behavior — evaluates `False or win` to True; but the code's first
replacement turns the string into `"False or Falsein"`, a second round
replaces the new undefined name `Falsein`, and `False or False` yields
False. -/
theorem eval_selector_textual_replacement_bug :
    eval_selector 10 ("w or win") [(("win"), true)] = some false ∧
    pyEval ("w or win") [(("w"), false), (("win"), true)] = Except.ok true ∧
    pyReplace ("w or win") ("w") ("False") = ("False or Falsein") := by
  refine ⟨by decide, by decide, by decide⟩

/-! ## Claim C8: non-conda outputs are dropped by toposort (code bug) -/

/-- C8 (code bug): `toposort`'s own comment promises that non-conda
packages get sorted to the end, but the re-append loop compares each
descriptor's string name against the stored integer indices of `endorder`
(`k['name'] == pkgname` with `pkgname` an index), a comparison that is
always False in Python; so a wheel-typed output is dropped from the
result (and hence contributes nothing to `get_output_metadata_set`'s
`non_conda_packages`), instead of appearing after the conda outputs. -/
theorem toposort_drops_non_conda_outputs :
    toposort
      [(⟨("a"), none⟩, [(("requirements"), Val.vMap [(("run"), Val.vList [])])]),
       (⟨("b"), some ("wheel")⟩,
        [(("requirements"), Val.vMap [(("run"), Val.vList [])])])]
      ("run") =
      some [(⟨("a"), none⟩,
             [(("requirements"), Val.vMap [(("run"), Val.vList [])])])] ∧
    (∀ l, toposort
      [(⟨("a"), none⟩, [(("requirements"), Val.vMap [(("run"), Val.vList [])])]),
       (⟨("b"), some ("wheel")⟩,
        [(("requirements"), Val.vMap [(("run"), Val.vList [])])])]
      ("run") = some l →
      (⟨("b"), some ("wheel")⟩ : OutDesc) ∉ l.map Prod.fst) := by
  refine ⟨by decide, ?_⟩
  intro l hl
  rw [show toposort
      [(⟨("a"), none⟩, [(("requirements"), Val.vMap [(("run"), Val.vList [])])]),
       (⟨("b"), some ("wheel")⟩,
        [(("requirements"), Val.vMap [(("run"), Val.vList [])])])]
      ("run") =
      some [(⟨("a"), none⟩,
             [(("requirements"), Val.vMap [(("run"), Val.vList [])])])]
    from by decide] at hl
  cases hl
  decide

/-! ## Claim C5: hash stamping in build_id -/

theorem takeWhile_append_all {p : Char → Bool} (l1 l2 : List Char)
    (h : ∀ c ∈ l1, p c = true) :
    List.takeWhile p (l1 ++ l2) = l1 ++ List.takeWhile p l2 := by
  induction l1 with
  | nil => simp
  | cons c rest ih =>
      have hc : p c = true := h c (by simp)
      simp only [List.cons_append, List.takeWhile_cons, hc]
      simp [ih (fun x hx => h x (by simp [hx]))]

theorem dropWhile_append_all {p : Char → Bool} (l1 l2 : List Char)
    (h : ∀ c ∈ l1, p c = true) :
    List.dropWhile p (l1 ++ l2) = List.dropWhile p l2 := by
  induction l1 with
  | nil => simp
  | cons c rest ih =>
      have hc : p c = true := h c (by simp)
      simp only [List.cons_append, List.dropWhile_cons, hc]
      simp [ih (fun x hx => h x (by simp [hx]))]

theorem hSegAt_cons (n : ℕ) (c : Char) (rest : List Char) :
    hSegAt n (c :: rest) =
      (c == 'h' && (rest.take n).length == n && (rest.take n).all isHexDigit) := by
  rfl

theorem subHashSegF_succ (n : ℕ) (repl : List Char) (fuel : ℕ) (c : Char)
    (cs : List Char) :
    subHashSegF n repl (fuel+1) (c :: cs) =
      if hSegAt n (c :: cs) then repl ++ subHashSegF n repl fuel (cs.drop n)
      else c :: subHashSegF n repl fuel cs := rfl

theorem subHashSegF_append_noH (n : ℕ) (repl : List Char) (w : List Char) :
    ∀ z fuel, (∀ c ∈ w, (c == 'h') = false) →
    subHashSegF n repl (w.length + fuel) (w ++ z) = w ++ subHashSegF n repl fuel z := by
  induction w with
  | nil => intro z fuel _; simp
  | cons c rest ih =>
      intro z fuel hw
      have hc : (c == 'h') = false := hw c (by simp)
      have hseg : hSegAt n (c :: (rest ++ z)) = false := by
        rw [hSegAt_cons]
        simp [hc]
      have hlen : (c :: rest).length + fuel = (rest.length + fuel) + 1 := by
        simp [List.length_cons]
        omega
      rw [hlen, List.cons_append, subHashSegF_succ, hseg]
      simp only [Bool.false_eq_true, if_false]
      rw [ih z fuel (fun x hx => hw x (by simp [hx]))]
      simp

theorem subHashSegF_seg (n : ℕ) (repl : List Char) (d v : List Char)
    (hd : d.length = n) (hdh : d.all isHexDigit = true) :
    subHashSegF n repl ((d.length + v.length) + 1) ('h' :: (d ++ v)) =
      repl ++ subHashSegF n repl (d.length + v.length) v := by
  rw [subHashSegF_succ]
  have hseg : hSegAt n ('h' :: (d ++ v)) = true := by
    rw [hSegAt_cons]
    rw [← hd, List.take_left]
    simp [hdh]
  rw [hseg]
  simp only [if_true]
  rw [← hd, List.drop_left]

theorem subHashSegF_noH_self (n : ℕ) (repl : List Char) (v : List Char) (fuel : ℕ)
    (hv : ∀ c ∈ v, (c == 'h') = false) :
    subHashSegF n repl (v.length + fuel) v = v := by
  have h0 : subHashSegF n repl fuel [] = [] := by cases fuel <;> rfl
  have := subHashSegF_append_noH n repl v [] fuel hv
  simpa [h0] using this

theorem findHashSeg_cons (n : ℕ) (c : Char) (cs : List Char) :
    findHashSeg n (c :: cs) = (hSegAt n (c :: cs) || findHashSeg n cs) := rfl

theorem findHashSeg_append_seg (n : ℕ) (u d v : List Char)
    (hd : d.length = n) (hdh : d.all isHexDigit = true) :
    findHashSeg n (u ++ 'h' :: (d ++ v)) = true := by
  induction u with
  | nil =>
      rw [List.nil_append, findHashSeg_cons]
      have hseg : hSegAt n ('h' :: (d ++ v)) = true := by
        rw [hSegAt_cons]
        rw [← hd, List.take_left]
        simp [hdh]
      simp [hseg]
  | cons c rest ih =>
      rw [List.cons_append, findHashSeg_cons, ih]
      simp

theorem rsplit1_split (p t : List Char)
    (ht : ∀ c ∈ t, (c == '_') = false) :
    rsplit1 (String.mk (p ++ '_' :: t)) = (String.mk p, some (String.mk t)) := by
  unfold rsplit1
  have hrev : (String.mk (p ++ '_' :: t)).data.reverse =
      t.reverse ++ '_' :: p.reverse := by
    show (p ++ '_' :: t).reverse = t.reverse ++ '_' :: p.reverse
    simp
  rw [hrev]

  have hall : ∀ c ∈ t.reverse, (fun x => decide (x ≠ '_')) c = true := by
    intro c hc
    have := ht c (List.mem_reverse.mp hc)
    simp at this
    simp [this]
  rw [dropWhile_append_all _ _ hall, takeWhile_append_all _ _ hall]
  simp [List.dropWhile_cons, List.takeWhile_cons]

theorem get_value_build_string (m : MetaDataM) (base : String)
    (hstr : alookup (get_section m.meta ("build")) ("string") = some (Val.vStr base))
    (hnt : trues.contains (lowerStr base) = false)
    (hnf : falses.contains (lowerStr base) = false) :
    get_value m.meta ("build/string") none = Val.vStr base := by
  unfold get_value
  rw [show splitOnChar '/' ("build/string") = [("build"), ("string")] from by decide]
  have hnt2 : lowerStr base ∉ trues := by simpa using hnt
  have hnf2 : lowerStr base ∉ falses := by simpa using hnf
  simp [hstr, coerceYamlBool, hnt2, hnf2]

/-- C5 (amended): with filename hashing enabled and an explicit, valid
`build/string`, `build_id` (1) replaces *every* left-to-right match of
`h` + hash_length hex digits by the freshly computed hash — in particular,
when the string embeds exactly one such segment, that exact segment and
only it is replaced, the surrounding text surviving verbatim — and (2)
when the string embeds no such segment, splices the hash right of the
`rsplit('_', 1)` head and re-appends the trailing underscore token. -/
theorem build_id_hash_stamping :
    (∀ (sha1hex : String → String) (m : MetaDataM) (base : String) (u d v : List Char),
      alookup (get_section m.meta ("build")) ("string") = some (Val.vStr base) →
      base.data = u ++ 'h' :: (d ++ v) →
      d.length = m.config.hash_length →
      d.all isHexDigit = true →
      (∀ c ∈ u, (c == 'h') = false) →
      (∀ c ∈ v, (c == 'h') = false) →
      trues.contains (lowerStr base) = false →
      falses.contains (lowerStr base) = false →
      checkBadChrsOk base ("build/string") = true →
      m.config.filename_hashing = true →
      build_id sha1hex m =
        Except.ok (String.mk (u ++ (_hash_dependencies sha1hex m).data ++ v))) ∧
    (∀ (sha1hex : String → String) (m : MetaDataM) (base : String) (p t : List Char),
      alookup (get_section m.meta ("build")) ("string") = some (Val.vStr base) →
      base.data = p ++ '_' :: t →
      (∀ c ∈ t, (c == '_') = false) →
      isPyInt (String.mk p) = false →
      findHashSeg m.config.hash_length base.data = false →
      trues.contains (lowerStr base) = false →
      falses.contains (lowerStr base) = false →
      checkBadChrsOk base ("build/string") = true →
      m.config.filename_hashing = true →
      build_id sha1hex m =
        Except.ok (String.mk p ++ _hash_dependencies sha1hex m ++ "_" ++ String.mk t)) := by
  constructor
  · intro sha1hex m base u d v hstr hbase hd hdh hu hv hnt hnf hbad hfh
    have hgv := get_value_build_string m base hstr hnt hnf
    have hne : base.data ≠ [] := by
      rw [hbase]
      simp
    have hptr : pyTruthy (Val.vStr base) = true := by
      cases hdata : base.data with
      | nil => exact absurd hdata hne
      | cons a as => simp [pyTruthy, hdata]
    have hfind : findHashSeg m.config.hash_length base.data = true := by
      rw [hbase, ← hd]
      exact findHashSeg_append_seg d.length u d v rfl hdh
    have hsub : subHashSeg m.config.hash_length
        (_hash_dependencies sha1hex m).data base.data =
        u ++ (_hash_dependencies sha1hex m).data ++ v := by
      rw [hbase]
      unfold subHashSeg
      have hlen : (u ++ 'h' :: (d ++ v)).length =
          u.length + ((d.length + v.length) + 1) := by
        simp
      rw [hlen, subHashSegF_append_noH _ _ u _ _ hu,
          subHashSegF_seg _ _ d v hd hdh,
          Nat.add_comm d.length v.length,
          subHashSegF_noH_self _ _ v d.length hv,
          List.append_assoc]
    simp only [build_id, hgv, hptr, if_true, hbad, hfh, hfind, hsub]
  · intro sha1hex m base p t hstr hbase htail hpint hnoseg hnt hnf hbad hfh
    have hgv := get_value_build_string m base hstr hnt hnf
    have hne : base.data ≠ [] := by
      rw [hbase]
      simp
    have hptr : pyTruthy (Val.vStr base) = true := by
      cases hdata : base.data with
      | nil => exact absurd hdata hne
      | cons a as => simp [pyTruthy, hdata]
    have hbase2 : base = String.mk (p ++ '_' :: t) := by
      cases base with
      | mk bl =>
          simp only at hbase
          rw [hbase]
    have hrs : rsplit1 base = (String.mk p, some (String.mk t)) := by
      rw [hbase2]
      exact rsplit1_split p t htail
    simp only [build_id, hgv, hptr, if_true, hbad, hfh, hnoseg, Bool.false_eq_true,
      if_false, hrs, hpint]

/-- C5 counterexample: with hash_length 7 and filename hashing on, the base
build string "h1234567_h89abcde" embeds a segment of `h` + exactly 7 hex
digits, and the claim says that exact segment (and only it) is replaced;
but `re.sub` replaces *all* matches: with a digest function returning all
zeros the result replaces both segments, and is neither of the two
single-replacement outcomes the claim permits. -/
theorem build_id_two_segments_counterexample :
    build_id (fun _ => "0000000000000000000000000000000000000000")
      { meta := [(("build"),
          Val.vMap [(("string"), Val.vStr ("h1234567_h89abcde"))])],
        config := { variantIgnoreVersion := [], hash_length := 7,
                    filename_hashing := true, include_recipe := true },
        recipeFiles := [], hasPath := false, synthesizedBuildString := "0" }
      = Except.ok ("h0000000_h0000000") ∧
    ("h0000000_h0000000" : String) ≠ ("h0000000_h89abcde") ∧
    ("h0000000_h0000000" : String) ≠ ("h1234567_h0000000") := by
  refine ⟨by decide, by decide, by decide⟩

/-- Witness for C5 (amended) at concrete inputs, with the all-zeros stub
digest: "py27h1234567_0" has its unique embedded segment (and only it)
replaced, giving "py27h0000000_0"; "py27_0" has no segment and gets the
hash spliced before the build-number token, giving "py27h0000000_0". -/
theorem build_id_hash_stamping_witness :
    build_id (fun _ => "0000000000000000000000000000000000000000")
      { meta := [(("build"),
          Val.vMap [(("string"), Val.vStr ("py27h1234567_0"))])],
        config := { variantIgnoreVersion := [], hash_length := 7,
                    filename_hashing := true, include_recipe := true },
        recipeFiles := [], hasPath := false, synthesizedBuildString := "0" }
      = Except.ok ("py27h0000000_0") ∧
    build_id (fun _ => "0000000000000000000000000000000000000000")
      { meta := [(("build"),
          Val.vMap [(("string"), Val.vStr ("py27_0"))])],
        config := { variantIgnoreVersion := [], hash_length := 7,
                    filename_hashing := true, include_recipe := true },
        recipeFiles := [], hasPath := false, synthesizedBuildString := "0" }
      = Except.ok ("py27h0000000_0") := by
  constructor
  · have h := build_id_hash_stamping.1
      (fun _ => "0000000000000000000000000000000000000000")
      { meta := [(("build"),
          Val.vMap [(("string"), Val.vStr ("py27h1234567_0"))])],
        config := { variantIgnoreVersion := [], hash_length := 7,
                    filename_hashing := true, include_recipe := true },
        recipeFiles := [], hasPath := false, synthesizedBuildString := "0" }
      ("py27h1234567_0") ("py27".data) ("1234567".data) ("_0".data)
      (by decide) (by decide) (by decide) (by decide) (by decide) (by decide)
      (by decide) (by decide) (by decide) (by decide)
    rw [h]
    decide
  · have h := build_id_hash_stamping.2
      (fun _ => "0000000000000000000000000000000000000000")
      { meta := [(("build"),
          Val.vMap [(("string"), Val.vStr ("py27_0"))])],
        config := { variantIgnoreVersion := [], hash_length := 7,
                    filename_hashing := true, include_recipe := true },
        recipeFiles := [], hasPath := false, synthesizedBuildString := "0" }
      ("py27_0") ("py27".data) ("0".data)
      (by decide) (by decide) (by decide) (by decide) (by decide) (by decide)
      (by decide) (by decide) (by decide)
    rw [h]
    decide

/-! ## Claim C7: the conditional line filter -/

theorem string_data_append (a b : String) : (a ++ b).data = a.data ++ b.data := rfl

theorem str_append_empty (s : String) : s ++ ("") = s := by
  cases s with
  | mk d =>
      show String.mk (d ++ []) = String.mk d
      rw [List.append_nil]

theorem str_empty_append (s : String) : ("") ++ s = s := by
  cases s with
  | mk d => rfl

theorem splitOnCharL_no_sep (sep : Char) (l : List Char)
    (h : ∀ c ∈ l, (c == sep) = false) : splitOnCharL sep l = [l] := by
  induction l with
  | nil => rfl
  | cons c rest ih =>
      have hc : (c == sep) = false := h c (by simp)
      simp only [splitOnCharL, hc, Bool.false_eq_true, if_false]
      rw [ih (fun x hx => h x (by simp [hx]))]

theorem splitLines_single (s : String) (hne : s.data ≠ [])
    (h : ∀ c ∈ s.data, (c == '\n') = false) : splitLines s = [s] := by
  unfold splitLines splitOnChar
  rw [splitOnCharL_no_sep _ _ h]
  show dropLastEmpty [String.mk s.data] = [s]
  cases s with
  | mk d =>
      simp only [dropLastEmpty]
      rw [if_neg (by simpa using hne)]

theorem dropWhile_append_of_ne_nil {p : Char → Bool} (u w : List Char)
    (h : List.dropWhile p u ≠ []) :
    List.dropWhile p (u ++ w) = List.dropWhile p u ++ w := by
  induction u with
  | nil => exact absurd rfl h
  | cons c rest ih =>
      by_cases hc : p c
      · rw [List.cons_append, List.dropWhile_cons_of_pos hc,
            List.dropWhile_cons_of_pos hc]
        exact ih (by rwa [List.dropWhile_cons_of_pos hc] at h)
      · rw [List.cons_append, List.dropWhile_cons_of_neg hc,
            List.dropWhile_cons_of_neg hc, List.cons_append]

theorem exists_nonws_of_rstrip_ne (l : List Char) (h : rstripL l ≠ []) :
    ∃ c ∈ l, Char.isWhitespace c = false := by
  by_contra hall
  push_neg at hall
  have hrev : ∀ c ∈ l.reverse, Char.isWhitespace c = true := by
    intro c hc
    have := hall c (List.mem_reverse.mp hc)
    simpa using this
  have : List.dropWhile Char.isWhitespace l.reverse = [] :=
    List.dropWhile_eq_nil_iff.mpr hrev
  exact h (by simp [rstripL, this])

theorem rstripL_append_nonws (l : List Char) (c : Char)
    (h : Char.isWhitespace c = false) : rstripL (l ++ [c]) = l ++ [c] := by
  unfold rstripL
  rw [List.reverse_append]
  simp only [List.reverse_cons, List.reverse_nil, List.nil_append,
    List.singleton_append, List.dropWhile_cons]
  rw [h]
  simp

theorem rstripL_append_ws (l p : List Char)
    (h : ∀ c ∈ p, Char.isWhitespace c = true) : rstripL (l ++ p) = rstripL l := by
  unfold rstripL
  rw [List.reverse_append, dropWhile_append_all _ _ (fun c hc => h c (List.mem_reverse.mp hc))]

theorem selMatch_comment_line (content pad cond : String)
    (hc : ∀ c ∈ content.data,
      (c == '[') = false ∧ (c == ']') = false ∧ (c == '#') = false)
    (hcr : rstripL content.data ≠ [])
    (hpad : ∀ c ∈ pad.data, c = ' ')
    (hcne : cond.data ≠ [])
    (hcond : ∀ c ∈ cond.data, (c == '[') = false ∧ (c == ']') = false) :
    selMatch (content ++ pad ++ ("# [") ++ cond ++ ("]")) =
      some (String.mk (rstripL content.data), cond) := by
  have hL : (content ++ pad ++ ("# [") ++ cond ++ ("]")).data =
      content.data ++ (pad.data ++ ('#' :: ' ' :: '[' :: (cond.data ++ [']']))) := by
    simp only [string_data_append]
    simp [List.append_assoc]
  have hcmemL : ('[' : Char) ∉ content.data := by
    intro hmem
    have := (hc _ hmem).1
    simp at this
  have hcmemR : (']' : Char) ∉ content.data := by
    intro hmem
    have := (hc _ hmem).2.1
    simp at this
  have hcmemH : ('#' : Char) ∉ content.data := by
    intro hmem
    have := (hc _ hmem).2.2
    simp at this
  have hpmemL : ('[' : Char) ∉ pad.data := by
    intro hmem
    have := hpad _ hmem
    simp at this
  have hpmemR : (']' : Char) ∉ pad.data := by
    intro hmem
    have := hpad _ hmem
    simp at this
  have hpmemH : ('#' : Char) ∉ pad.data := by
    intro hmem
    have := hpad _ hmem
    simp at this
  have hqmemL : ('[' : Char) ∉ cond.data := by
    intro hmem
    have := (hcond _ hmem).1
    simp at this
  have hqmemR : (']' : Char) ∉ cond.data := by
    intro hmem
    have := (hcond _ hmem).2
    simp at this
  have hcount1 : (content.data ++ (pad.data ++
      ('#' :: ' ' :: '[' :: (cond.data ++ [']'])))).count '[' = 1 := by
    simp [List.count_append, List.count_cons,
      List.count_eq_zero.mpr hcmemL, List.count_eq_zero.mpr hpmemL,
      List.count_eq_zero.mpr hqmemL]
  have hcount2 : (content.data ++ (pad.data ++
      ('#' :: ' ' :: '[' :: (cond.data ++ [']'])))).count ']' = 1 := by
    simp [List.count_append, List.count_cons,
      List.count_eq_zero.mpr hcmemR, List.count_eq_zero.mpr hpmemR,
      List.count_eq_zero.mpr hqmemR]
  have hcontNeL : ∀ c ∈ content.data, (fun x => decide (x ≠ '[')) c = true := by
    intro c hcm
    have h2 : c ≠ '[' := by simpa using (hc c hcm).1
    simpa using h2
  have hpadNeL : ∀ c ∈ pad.data, (fun x => decide (x ≠ '[')) c = true := by
    intro c hcm
    rw [hpad c hcm]
    decide
  have hdrop : List.dropWhile (fun x => decide (x ≠ '['))
      (content.data ++ (pad.data ++ ('#' :: ' ' :: '[' :: (cond.data ++ [']'])))) =
      '[' :: (cond.data ++ [']']) := by
    rw [dropWhile_append_all _ _ hcontNeL, dropWhile_append_all _ _ hpadNeL]
    rw [List.dropWhile_cons_of_pos (by decide),
        List.dropWhile_cons_of_pos (by decide),
        List.dropWhile_cons_of_neg (by decide)]
  have htake : List.takeWhile (fun x => decide (x ≠ '['))
      (content.data ++ (pad.data ++ ('#' :: ' ' :: '[' :: (cond.data ++ [']'])))) =
      content.data ++ (pad.data ++ ['#', ' ']) := by
    rw [takeWhile_append_all _ _ hcontNeL, takeWhile_append_all _ _ hpadNeL]
    rw [List.takeWhile_cons_of_pos (by decide),
        List.takeWhile_cons_of_pos (by decide),
        List.takeWhile_cons_of_neg (by decide)]
  have hqNeR : ∀ c ∈ cond.data, (fun x => decide (x ≠ ']')) c = true := by
    intro c hcm
    have h2 : c ≠ ']' := by simpa using (hcond c hcm).2
    simpa using h2
  have hctake : List.takeWhile (fun x => decide (x ≠ ']'))
      (cond.data ++ [']']) = cond.data := by
    rw [takeWhile_append_all _ _ hqNeR, List.takeWhile_cons_of_neg (by decide)]
    simp
  have hcdrop : List.dropWhile (fun x => decide (x ≠ ']'))
      (cond.data ++ [']']) = [']'] := by
    rw [dropWhile_append_all _ _ hqNeR, List.dropWhile_cons_of_neg (by decide)]
  have hcondemp : cond.data.isEmpty = false := by
    cases hq : cond.data with
    | nil => exact absurd hq hcne
    | cons a as => rfl
  have hWnoR : (content.data ++ (pad.data ++ ['#', ' '])).contains ']' = false := by
    simp [hcmemR, hpmemR]
  have hWhasH : (content.data ++ (pad.data ++ ['#', ' '])).contains '#' = true := by
    simp
  have hcontNeH : ∀ c ∈ content.data, (fun x => decide (x ≠ '#')) c = true := by
    intro c hcm
    have h2 : c ≠ '#' := by simpa using (hc c hcm).2.2
    simpa using h2
  have hpadNeH : ∀ c ∈ pad.data, (fun x => decide (x ≠ '#')) c = true := by
    intro c hcm
    rw [hpad c hcm]
    decide
  have hpre2 : List.takeWhile (fun x => decide (x ≠ '#'))
      (content.data ++ (pad.data ++ ['#', ' '])) = content.data ++ pad.data := by
    rw [takeWhile_append_all _ _ hcontNeH, takeWhile_append_all _ _ hpadNeH]
    rw [List.takeWhile_cons_of_neg (by decide)]
    simp
  have hpadws : ∀ c ∈ pad.data, Char.isWhitespace c = true := by
    intro c hcm
    rw [hpad c hcm]
    decide
  have hrs : rstripL (content.data ++ pad.data) = rstripL content.data :=
    rstripL_append_ws _ _ hpadws
  have hcremp : (rstripL content.data).isEmpty = false := by
    cases hx : rstripL content.data with
    | nil => exact absurd hx hcr
    | cons a as => rfl
  unfold selMatch
  simp only [hL, hcount1, hcount2]
  simp only [hdrop, htake]
  simp only [hctake, hcdrop, hcondemp, hWnoR, hWhasH, hpre2, hrs, hcremp]
  simp
  exact hcr

theorem eval_selector_ok (fuel : ℕ) (s : String) (ns : List (String × Bool))
    (b : Bool) (h : pyEval s ns = Except.ok b) :
    eval_selector (fuel+1) s ns = some b := by
  simp [eval_selector, h]

/-- C7 (amended): a line carrying a trailing bracketed selector (the only
bracket pair on the line, preceded by a `#` comment marker) is kept iff
the selector evaluates true, and what is kept is the content with the
selector, comment and trailing whitespace stripped; a non-comment line
with no bracket is kept after right-stripping its trailing whitespace
(not fully verbatim: `select_lines` right-strips every line first). -/
theorem select_lines_spec :
    (∀ (content pad cond : String) (ns : List (String × Bool)) (b : Bool),
      (∀ c ∈ content.data, (c == '[') = false ∧ (c == ']') = false ∧
        (c == '#') = false ∧ (c == '\n') = false) →
      rstripL content.data ≠ [] →
      (∀ c ∈ pad.data, c = ' ') →
      cond.data ≠ [] →
      (∀ c ∈ cond.data, (c == '[') = false ∧ (c == ']') = false ∧
        (c == '\n') = false) →
      pyEval cond ns = Except.ok b →
      select_lines (content ++ pad ++ ("# [") ++ cond ++ ("]")) ns =
        Except.ok ((if b then String.mk (rstripL content.data) else ("")) ++ ("\n"))) ∧
    (∀ (line : String) (ns : List (String × Bool)),
      (∀ c ∈ line.data, (c == '[') = false ∧ (c == '\n') = false) →
      (lstripL (rstripStr line).data).head? ≠ some ('#') →
      select_lines line ns = Except.ok (rstripStr line ++ ("\n"))) := by
  constructor
  · intro content pad cond ns b hc hcr hpad hcne hcond heval
    have hL : (content ++ pad ++ ("# [") ++ cond ++ ("]")).data =
        content.data ++ (pad.data ++ ('#' :: ' ' :: '[' :: (cond.data ++ [']']))) := by
      simp only [string_data_append]
      simp [List.append_assoc]
    have hL2 : (content ++ pad ++ ("# [") ++ cond ++ ("]")).data =
        (content.data ++ (pad.data ++ ('#' :: ' ' :: '[' :: cond.data))) ++ [']'] := by
      rw [hL]
      simp [List.append_assoc]
    have hne : (content ++ pad ++ ("# [") ++ cond ++ ("]")).data ≠ [] := by
      rw [hL]
      simp
    have hnonl : ∀ c ∈ (content ++ pad ++ ("# [") ++ cond ++ ("]")).data,
        (c == '\n') = false := by
      rw [hL]
      intro c hcm
      simp only [List.mem_append, List.mem_cons] at hcm
      rcases hcm with h1 | h2 | h3 | h4 | h5 | h6
      · exact (hc c h1).2.2.2
      · rw [hpad c h2]
        decide
      · rw [h3]
        decide
      · rw [h4]
        decide
      · rw [h5]
        decide
      · rcases h6 with h7 | h8 | h9
        · exact (hcond c h7).2.2
        · rw [h8]
          decide
        · exact absurd h9 (List.not_mem_nil c)
    have hsplit : splitLines (content ++ pad ++ ("# [") ++ cond ++ ("]")) =
        [content ++ pad ++ ("# [") ++ cond ++ ("]")] :=
      splitLines_single _ hne hnonl
    have hrl : rstripL (content ++ pad ++ ("# [") ++ cond ++ ("]")).data =
        (content ++ pad ++ ("# [") ++ cond ++ ("]")).data := by
      rw [hL2]
      exact rstripL_append_nonws _ _ (by decide)
    have hrstr : rstripStr (content ++ pad ++ ("# [") ++ cond ++ ("]")) =
        content ++ pad ++ ("# [") ++ cond ++ ("]") := by
      unfold rstripStr
      rw [hrl]
    have hglast : (content ++ pad ++ ("# [") ++ cond ++ ("]")).data.getLast? =
        some (']') := by
      rw [hL2]
      exact List.getLast?_concat _
    have hlne : List.dropWhile Char.isWhitespace content.data ≠ [] := by
      intro hnil
      obtain ⟨c0, hc0m, hc0w⟩ := exists_nonws_of_rstrip_ne content.data hcr
      have := List.dropWhile_eq_nil_iff.mp hnil c0 hc0m
      rw [hc0w] at this
      cases this
    have hcomm : ((lstripL (content ++ pad ++ ("# [") ++ cond ++ ("]")).data).head? ==
        some ('#')) = false := by
      rw [hL]
      unfold lstripL
      rw [dropWhile_append_of_ne_nil _ _ hlne]
      cases hd : List.dropWhile Char.isWhitespace content.data with
      | nil => exact absurd hd hlne
      | cons c0 tl =>
          have hc0mem : c0 ∈ content.data :=
            (List.dropWhile_sublist (p := Char.isWhitespace)).subset
              (hd ▸ List.mem_cons_self c0 tl)
          have hc0 : (c0 == '#') = false := (hc c0 hc0mem).2.2.1
          simp [hc0]
    have hmatch := selMatch_comment_line content pad cond
      (fun c hcm => ⟨(hc c hcm).1, (hc c hcm).2.1, (hc c hcm).2.2.1⟩) hcr hpad hcne
      (fun c hcm => ⟨(hcond c hcm).1, (hcond c hcm).2.1⟩)
    have hsel : eval_selector selEvalFuel cond ns = some b := by
      rw [show selEvalFuel = 999 + 1 from rfl]
      exact eval_selector_ok 999 cond ns b heval
    unfold select_lines
    rw [hsplit]
    simp only [selectLinesGo, hrstr, hglast, hcomm, hmatch, hsel]
    cases b
    · rfl
    · have hq : (((']').toNat == 39) || ((']') == ('\x22'))) = false := by decide
      simp [hq, joinNL, str_append_empty, Except.map]
  · intro line ns hno hcomm
    cases hldata : line.data with
    | nil =>
        have hl : line = ("") := by
          cases line with
          | mk d =>
              simp only at hldata
              rw [hldata]
        rw [hl]
        rfl
    | cons c0 tl =>
        have hne : line.data ≠ [] := by rw [hldata]; simp
        have hsplit : splitLines line = [line] :=
          splitLines_single _ hne (fun c hcm => (hno c hcm).2)
        have hsubl : (rstripStr line).data.Sublist line.data := by
          show (rstripL line.data).Sublist line.data
          unfold rstripL
          have h := (List.dropWhile_sublist
            (p := Char.isWhitespace) (l := line.data.reverse)).reverse
          rwa [List.reverse_reverse] at h
        have hnolb : ('[' : Char) ∉ (rstripStr line).data := by
          intro hmem
          have := (hno _ (hsubl.subset hmem)).1
          simp at this
        have hcnt : (rstripStr line).data.count '[' = 0 :=
          List.count_eq_zero.mpr hnolb
        have hsm : selMatch (rstripStr line) = none := by
          simp [selMatch, hcnt]
        have hcommb : (((lstripL (rstripStr line).data).head?) == some ('#')) = false := by
          cases hh : (lstripL (rstripStr line).data).head? with
          | none => rfl
          | some c =>
              have : c ≠ '#' := by
                intro he
                subst he
                exact hcomm hh
              simp [this]
        unfold select_lines
        rw [hsplit]
        simp only [selectLinesGo, hsm, hcommb]
        rfl

/-- C7 counterexample: a selector-free line with trailing whitespace is
not kept verbatim - select_lines right-strips it, so the claim's
"always kept verbatim" fails on the line "- foo ". -/
theorem select_lines_strips_trailing_whitespace :
    select_lines ("- foo ") [] = Except.ok ("- foo\n") ∧
    ("- foo\n" : String) ≠ ("- foo \n") := by
  constructor
  · rfl
  · decide

/-- C7 witness: the amended theorem applied at Scenario A (selector line
"- foo  # [win]" with win=false drops its content) and at a concrete
selector-free line. -/
theorem select_lines_spec_witness :
    (select_lines (("- foo") ++ ("  ") ++ ("# [") ++ ("win") ++ ("]"))
        [(("win"), false)] =
      Except.ok ((if false then String.mk (rstripL ("- foo").data) else ("")) ++
        ("\n"))) ∧
    (select_lines ("- bar ") [] = Except.ok (rstripStr ("- bar ") ++ ("\n"))) :=
  ⟨select_lines_spec.1 ("- foo") ("  ") ("win") [(("win"), false)] false
      (by decide) (by decide) (by decide) (by decide) (by decide) (by decide),
   select_lines_spec.2 ("- bar ") [] (by decide) (by decide)⟩

/-! ## Claim C2: toposort orders conda dependencies before dependents -/

theorem mem_aset_self {α : Type} (l : List (String × α)) (k : String) (v : α) :
    (k, v) ∈ aset l k v := by
  induction l with
  | nil => simp [aset]
  | cons e rest ih =>
      obtain ⟨k2, v2⟩ := e
      by_cases h : k2 = k
      · simp [aset, h]
      · simp only [aset, if_neg h]
        exact List.mem_cons_of_mem _ ih

theorem mem_aset_of_ne {α : Type} (l : List (String × α)) (k n : String) (v : α)
    (d : α) (hne : k ≠ n) (hm : (k, v) ∈ l) : (k, v) ∈ aset l n d := by
  induction l with
  | nil => exact absurd hm (List.not_mem_nil _)
  | cons e rest ih =>
      obtain ⟨k2, v2⟩ := e
      by_cases h : k2 = n
      · simp only [aset, if_pos h]
        rcases List.mem_cons.mp hm with h1 | h2
        · exact absurd (h ▸ congrArg Prod.fst h1) hne
        · exact List.mem_cons_of_mem _ h2
      · simp only [aset, if_neg h]
        rcases List.mem_cons.mp hm with h1 | h2
        · exact h1 ▸ List.mem_cons_self _ _
        · exact List.mem_cons_of_mem _ (ih h2)

theorem dedupFoldl_mem (l : List String) (acc : List String) (x : String)
    (h : x ∈ acc ∨ x ∈ l) :
    x ∈ List.foldl (fun acc d => if acc.contains d then acc else acc ++ [d]) acc l := by
  induction l generalizing acc with
  | nil => simpa using h
  | cons d rest ih =>
      simp only [List.foldl_cons]
      apply ih
      rcases h with h1 | h2
      · left
        by_cases hc : acc.contains d = true
        · rw [if_pos hc]
          exact h1
        · rw [if_neg hc]
          exact List.mem_append_left _ h1
      · rcases List.mem_cons.mp h2 with h3 | h4
        · left
          by_cases hc : acc.contains d = true
          · rw [if_pos hc, h3]
            simpa using hc
          · rw [if_neg hc, h3]
            exact List.mem_append_right _ (List.mem_singleton.mpr rfl)
        · right
          exact h4

theorem buildTopoAux_preserved (these : List String) (phase : String)
    (outs : List (OutDesc × List (String × Val))) (idx : ℕ)
    (td : List (String × List String)) (eo : List ℕ) (k : String)
    (v : List String) (hm : (k, v) ∈ td)
    (hno : ∀ o ∈ outs, o.1.name ≠ k) :
    (k, v) ∈ (buildTopoAux these phase outs idx td eo).1 := by
  induction outs generalizing idx td eo with
  | nil => exact hm
  | cons o rest ih =>
      by_cases hc : isCondaType o.1 = true
      · simp only [buildTopoAux, if_pos hc]
        exact ih _ _ _
          (mem_aset_of_ne _ _ _ _ _
            (fun he => hno o (List.mem_cons_self _ _) he.symm) hm)
          (fun o2 h2 => hno o2 (List.mem_cons_of_mem _ h2))
      · simp only [buildTopoAux, if_neg hc]
        exact ih _ _ _ hm (fun o2 h2 => hno o2 (List.mem_cons_of_mem _ h2))

theorem buildTopoAux_entry (these : List String) (phase : String)
    (a : OutDesc) (ma : List (String × Val))
    (outs : List (OutDesc × List (String × Val))) (idx : ℕ)
    (td : List (String × List String)) (eo : List ℕ)
    (hmem : (a, ma) ∈ outs) (hacond : isCondaType a = true)
    (hnodup : (outs.map (fun o => o.1.name)).Nodup) :
    (a.name,
      List.foldl (fun acc d => if acc.contains d then acc else acc ++ [d]) []
        ((depHeads ma phase).filter (fun d => these.contains d))) ∈
      (buildTopoAux these phase outs idx td eo).1 := by
  induction outs generalizing idx td eo with
  | nil => exact absurd hmem (List.not_mem_nil _)
  | cons o rest ih =>
      have hnd2 := List.nodup_cons.mp (show (o.1.name :: rest.map (fun o => o.1.name)).Nodup from hnodup)
      rcases List.mem_cons.mp hmem with h1 | h2
      · subst h1
        simp only [buildTopoAux, if_pos hacond]
        apply buildTopoAux_preserved
        · exact mem_aset_self _ _ _
        · intro o2 h2 he
          exact hnd2.1 (he ▸ List.mem_map_of_mem (fun o => o.1.name) h2)
      · by_cases hc : isCondaType o.1 = true
        · simp only [buildTopoAux, if_pos hc]
          exact ih _ _ _ h2 hnd2.2
        · simp only [buildTopoAux, if_neg hc]
          exact ih _ _ _ h2 hnd2.2

theorem extractReady_split (done : List String)
    (pending : List (String × List String))
    (er : (String × List String) × List (String × List String))
    (h : extractReady done pending = some er) :
    ∃ p1 p2, pending = p1 ++ er.1 :: p2 ∧ er.2 = p1 ++ p2 ∧
      er.1.2.all (fun d => done.contains d) = true := by
  induction pending generalizing er with
  | nil => exact absurd h (by simp [extractReady])
  | cons e rest ih =>
      by_cases hr : e.2.all (fun d => done.contains d) = true
      · simp only [extractReady, if_pos hr] at h
        obtain he := Option.some.inj h
        refine ⟨[], rest, ?_, ?_, ?_⟩
        · rw [← he]
          rfl
        · rw [← he]
          rfl
        · rw [← he]
          exact hr

      · simp only [extractReady, if_neg hr] at h
        cases hrec : extractReady done rest with
        | none =>
            rw [hrec] at h
            exact absurd h (by simp)
        | some er2 =>
            rw [hrec] at h
            obtain he := Option.some.inj h
            obtain ⟨p1, p2, hp, hr2, hall⟩ := ih er2 hrec
            refine ⟨e :: p1, p2, ?_, ?_, ?_⟩
            · rw [← he]
              simp [hp]
            · rw [← he]
              simp [hr2]
            · rw [← he]
              exact hall

theorem topoAux_succ (e : String × List String)
    (rest : List (String × List String)) (done : List String) (fuel : ℕ) :
    topoAux (e :: rest) done (fuel+1) =
      match extractReady done (e :: rest) with
      | none => none
      | some er => topoAux er.2 (er.1.1 :: done) fuel := rfl

theorem topoAux_prefix (fuel : ℕ) (pending : List (String × List String))
    (done order : List String) (h : topoAux pending done fuel = some order) :
    ∃ s, order = done.reverse ++ s := by
  induction fuel generalizing pending done order with
  | zero =>
      cases pending with
      | nil =>
          refine ⟨[], ?_⟩
          rw [← Option.some.inj h]
          simp
      | cons e rest => exact absurd h (by simp [topoAux])
  | succ fuel ih =>
      cases pending with
      | nil =>
          refine ⟨[], ?_⟩
          rw [← Option.some.inj h]
          simp
      | cons e rest =>
          cases hex : extractReady done (e :: rest) with
          | none =>
              rw [topoAux_succ, hex] at h
              exact absurd h (by simp)
          | some er =>
              rw [topoAux_succ, hex] at h
              obtain ⟨s, hs⟩ := ih _ _ _ h
              refine ⟨er.1.1 :: s, ?_⟩
              rw [hs]
              simp

theorem topoAux_before (fuel : ℕ) (pending : List (String × List String))
    (done order : List String) (n : String) (deps : List String) (d : String)
    (h : topoAux pending done fuel = some order)
    (hmem : (n, deps) ∈ pending) (hd : d ∈ deps) :
    ∃ l1 l2, order = l1 ++ n :: l2 ∧ d ∈ l1 ∧ done.reverse <+: l1 := by
  induction fuel generalizing pending done order with
  | zero =>
      cases pending with
      | nil => exact absurd hmem (List.not_mem_nil _)
      | cons e rest => exact absurd h (by simp [topoAux])
  | succ fuel ih =>
      cases pending with
      | nil => exact absurd hmem (List.not_mem_nil _)
      | cons e rest =>
          cases hex : extractReady done (e :: rest) with
          | none =>
              rw [topoAux_succ, hex] at h
              exact absurd h (by simp)
          | some er =>
              rw [topoAux_succ, hex] at h
              obtain ⟨p1, p2, hpend, hrest, hall⟩ := extractReady_split _ _ _ hex
              rw [hpend] at hmem
              rcases List.mem_append.mp hmem with h1 | h2
              · -- (n, deps) sits left of the extracted entry: it is in er.2
                have : (n, deps) ∈ er.2 := by
                  rw [hrest]
                  exact List.mem_append_left _ h1
                obtain ⟨l1, l2, ho, hdl, hpre⟩ := ih _ _ _ h this
                refine ⟨l1, l2, ho, hdl, ?_⟩
                refine List.IsPrefix.trans ?_ hpre
                rw [List.reverse_cons]
                exact List.prefix_append _ _
              · rcases List.mem_cons.mp h2 with h3 | h4
                · -- (n, deps) is the extracted entry: its deps are all done
                  have hn : n = er.1.1 := congrArg Prod.fst h3
                  have hdeps : deps = er.1.2 := congrArg Prod.snd h3
                  have hdone : d ∈ done := by
                    rw [hdeps] at hd
                    have := List.all_eq_true.mp hall d hd
                    simpa using this
                  obtain ⟨s, hs⟩ := topoAux_prefix _ _ _ _ h
                  refine ⟨done.reverse, s, ?_, ?_, ?_⟩
                  · rw [hs, hn]
                    simp
                  · exact List.mem_reverse.mpr hdone
                  · exact List.prefix_refl _
                · have : (n, deps) ∈ er.2 := by
                    rw [hrest]
                    exact List.mem_append_right _ h4
                  obtain ⟨l1, l2, ho, hdl, hpre⟩ := ih _ _ _ h this
                  refine ⟨l1, l2, ho, hdl, ?_⟩
                  refine List.IsPrefix.trans ?_ hpre
                  rw [List.reverse_cons]
                  exact List.prefix_append _ _

theorem plookup_exists_of_mem {κ α : Type} [DecidableEq κ]
    (l : List (κ × α)) (k : κ) (h : k ∈ l.map Prod.fst) :
    ∃ v, plookup l k = some v := by
  induction l with
  | nil => exact absurd h (by simp)
  | cons e rest ih =>
      obtain ⟨k2, v2⟩ := e
      by_cases he : k2 = k
      · exact ⟨v2, by simp [plookup, he]⟩
      · simp only [plookup, if_neg he]
        apply ih
        have h2 : k = k2 ∨ ∃ x, (k, x) ∈ rest := by simpa using h
        rcases h2 with h1 | ⟨v3, h3⟩
        · exact absurd h1.symm he
        · exact List.mem_map_of_mem Prod.fst h3

theorem filterMap_plookup_fst {κ α : Type} [DecidableEq κ]
    (keys : List κ) (outs : List (κ × α))
    (h : ∀ k ∈ keys, ∃ v, plookup outs k = some v) :
    (keys.filterMap (fun k => (plookup outs k).map (fun mv => (k, mv)))).map
      Prod.fst = keys := by
  induction keys with
  | nil => rfl
  | cons k ks ih =>
      obtain ⟨v, hv⟩ := h k (List.mem_cons_self _ _)
      have hstep : ((k :: ks).filterMap
          (fun k2 => (plookup outs k2).map (fun mv => (k2, mv)))) =
          (k, v) :: ks.filterMap
            (fun k2 => (plookup outs k2).map (fun mv => (k2, mv))) := by
        rw [List.filterMap_cons, hv]
        rfl
      rw [hstep, List.map_cons, ih (fun k2 h2 => h k2 (List.mem_cons_of_mem _ h2))]

/-- C2: for conda-typed outputs a and b in the map handed to `toposort`,
if b's name is among a's extracted dependency names for the chosen phase
(and output names are distinct, as dict keys are), then b's name appears
strictly before a's in the ordering `toposort` returns. -/
theorem toposort_orders_dependencies
    (outs : List (OutDesc × List (String × Val))) (phase : String)
    (a b : OutDesc) (ma : List (String × Val))
    (res : List (OutDesc × List (String × Val)))
    (ha : (a, ma) ∈ outs) (hb : b ∈ outs.map Prod.fst)
    (hacond : isCondaType a = true) (hbcond : isCondaType b = true)
    (hdep : b.name ∈ depHeads ma phase)
    (hnodup : (outs.map (fun o => o.1.name)).Nodup)
    (hres : toposort outs phase = some res) :
    ∃ l1 l2, res.map (fun p => p.1.name) = l1 ++ a.name :: l2 ∧ b.name ∈ l1 := by
  have hbthese : b.name ∈ thesePackages outs := by
    obtain ⟨p, hp, hpf⟩ := List.mem_map.mp hb
    unfold thesePackages
    refine List.mem_map.mpr ⟨p, List.mem_filter.mpr ⟨hp, ?_⟩, by rw [hpf]⟩
    rw [hpf]
    exact hbcond
  have hentry := buildTopoAux_entry (thesePackages outs) phase a ma outs 0 [] []
    ha hacond hnodup
  have hbdeps : b.name ∈ List.foldl
      (fun acc d => if acc.contains d then acc else acc ++ [d]) []
      ((depHeads ma phase).filter (fun d => (thesePackages outs).contains d)) := by
    apply dedupFoldl_mem
    right
    exact List.mem_filter.mpr ⟨hdep, by simp [hbthese]⟩
  simp only [toposort] at hres
  cases hord : _toposort (buildTopoAux (thesePackages outs) phase outs 0 [] []).1 with
  | none =>
      rw [hord] at hres
      exact absurd hres (by simp)
  | some order =>
      rw [hord] at hres
      have hres2 := Option.some.inj hres
      unfold _toposort at hord
      obtain ⟨l1, l2, horder, hbl1, _⟩ :=
        topoAux_before _ _ _ _ a.name _ b.name hord hentry hbdeps
      have hend : (buildTopoAux (thesePackages outs) phase outs 0 [] []).2.flatMap
          (fun idx => (outs.map Prod.fst).filter (fun k => pyStrEqInt k.name idx)) =
          [] := by
        simp [pyStrEqInt]
      have hkeysub : ∀ k ∈ order.flatMap
          (fun pkg => (outs.map Prod.fst).filter (fun k => k.name == pkg)),
          ∃ v, plookup outs k = some v := by
        intro k hk
        obtain ⟨pkg, hpkg, hkf⟩ := List.mem_flatMap.mp hk
        exact plookup_exists_of_mem outs k (List.mem_filter.mp hkf).1
      have hmapfst : res.map Prod.fst = order.flatMap
          (fun pkg => (outs.map Prod.fst).filter (fun k => k.name == pkg)) := by
        rw [← hres2, hend, List.append_nil]
        exact filterMap_plookup_fst _ outs hkeysub
      have hnames : res.map (fun p => p.1.name) = (order.flatMap
          (fun pkg => (outs.map Prod.fst).filter (fun k => k.name == pkg))).map
          (fun k => k.name) := by
        rw [← hmapfst, List.map_map]
        rfl
      have haF : a ∈ (outs.map Prod.fst).filter (fun k => k.name == a.name) :=
        List.mem_filter.mpr ⟨List.mem_map_of_mem Prod.fst ha, by simp⟩
      have hbF : b ∈ (outs.map Prod.fst).filter (fun k => k.name == b.name) :=
        List.mem_filter.mpr ⟨hb, by simp⟩
      cases hFa : (outs.map Prod.fst).filter (fun k => k.name == a.name) with
      | nil =>
          rw [hFa] at haF
          exact absurd haF (List.not_mem_nil _)
      | cons k0 ks =>
          have hk0 : k0.name = a.name := by
            have hk0m : k0 ∈ (outs.map Prod.fst).filter
                (fun k => k.name == a.name) := by
              rw [hFa]
              exact List.mem_cons_self _ _
            simpa using (List.mem_filter.mp hk0m).2
          refine ⟨(l1.flatMap (fun pkg => (outs.map Prod.fst).filter
              (fun k => k.name == pkg))).map (fun k => k.name),
            ks.map (fun k => k.name) ++ (l2.flatMap
              (fun pkg => (outs.map Prod.fst).filter
                (fun k => k.name == pkg))).map (fun k => k.name), ?_, ?_⟩
          · rw [hnames, horder, List.flatMap_append, List.flatMap_cons, hFa]
            simp [hk0, List.append_assoc]
          · exact List.mem_map.mpr ⟨b,
              List.mem_flatMap.mpr ⟨b.name, hbl1, hbF⟩, rfl⟩

/-- C2 witness: Scenario D - output `a` with no requirements and output `b`
whose run requirements name `a` are returned in the order [a, b], with a
strictly before b. -/
theorem toposort_orders_dependencies_witness :
    ∃ l1 l2,
      ([((⟨("a"), none⟩ : OutDesc), ([] : List (String × Val))),
        (⟨("b"), none⟩,
          [(("requirements"),
            Val.vMap [(("run"), Val.vList [Val.vStr ("a")])])])].map
        (fun p => p.1.name)) = l1 ++ ("b") :: l2 ∧ ("a") ∈ l1 :=
  toposort_orders_dependencies
    [((⟨("a"), none⟩ : OutDesc), ([] : List (String × Val))),
      (⟨("b"), none⟩,
        [(("requirements"),
          Val.vMap [(("run"), Val.vList [Val.vStr ("a")])])])]
    ("run") ⟨("b"), none⟩ ⟨("a"), none⟩
    [(("requirements"), Val.vMap [(("run"), Val.vList [Val.vStr ("a")])])]
    [((⟨("a"), none⟩ : OutDesc), ([] : List (String × Val))),
      (⟨("b"), none⟩,
        [(("requirements"),
          Val.vMap [(("run"), Val.vList [Val.vStr ("a")])])])]
    (by decide) (by decide) (by decide) (by decide) (by decide) (by decide)
    (by decide)

/-! ## Claim C9: sanitize idempotence -/

theorem filter_self_idem {α : Type} (p : α → Bool) (l : List α) :
    (l.filter p).filter p = l.filter p := by
  induction l with
  | nil => rfl
  | cons x rest ih =>
      by_cases h : p x = true
      · simp [List.filter_cons, h, ih]
      · simp [List.filter_cons, h, ih]

theorem trimEntries_eq_self (l : List (String × Val))
    (h : ∀ e ∈ l, trimValue e.2 = e.2) : trimEntries l = l := by
  induction l with
  | nil => rw [trimEntries]
  | cons e rest ih =>
      obtain ⟨k, v⟩ := e
      rw [trimEntries, h (k, v) (List.mem_cons_self _ _), ih
        (fun e2 h2 => h e2 (List.mem_cons_of_mem _ h2))]

theorem mem_trimEntries (l : List (String × Val)) (e : String × Val)
    (h : e ∈ trimEntries l) : ∃ k v, (k, v) ∈ l ∧ e = (k, trimValue v) := by
  induction l with
  | nil =>
      rw [trimEntries] at h
      exact absurd h (List.not_mem_nil _)
  | cons e2 rest ih =>
      obtain ⟨k2, v2⟩ := e2
      rw [trimEntries] at h
      rcases List.mem_cons.mp h with h1 | h2
      · exact ⟨k2, v2, List.mem_cons_self _ _, h1⟩
      · obtain ⟨k, v, hm, he⟩ := ih h2
        exact ⟨k, v, List.mem_cons_of_mem _ hm, he⟩

theorem alookup_mem {α : Type} (l : List (String × α)) (k : String) (v : α)
    (h : alookup l k = some v) : (k, v) ∈ l := by
  induction l with
  | nil => exact absurd h (by simp [alookup])
  | cons e rest ih =>
      obtain ⟨k2, v2⟩ := e
      by_cases he : k2 = k
      · rw [alookup, if_pos he] at h
        rw [← Option.some.inj h, he]
        exact List.mem_cons_self _ _
      · rw [alookup, if_neg he] at h
        exact List.mem_cons_of_mem _ (ih h)

theorem homogEntries_mem (l : List (String × Val)) (k : String) (v : Val)
    (hh : homogEntries l = true) (hm : (k, v) ∈ l) : homogVal v = true := by
  induction l with
  | nil => exact absurd hm (List.not_mem_nil _)
  | cons e rest ih =>
      obtain ⟨k2, v2⟩ := e
      rw [homogEntries, Bool.and_eq_true] at hh
      rcases List.mem_cons.mp hm with h1 | h2
      · rw [show v = v2 from congrArg Prod.snd h1]
        exact hh.1
      · exact ih hh.2 h2

theorem homogEntries_filter (l : List (String × Val))
    (p : String × Val → Bool) (hh : homogEntries l = true) :
    homogEntries (l.filter p) = true := by
  induction l with
  | nil => exact hh
  | cons e rest ih =>
      obtain ⟨k2, v2⟩ := e
      rw [homogEntries, Bool.and_eq_true] at hh
      by_cases hp : p (k2, v2) = true
      · rw [List.filter_cons_of_pos hp, homogEntries, Bool.and_eq_true]
        exact ⟨hh.1, ih hh.2⟩
      · rw [List.filter_cons_of_neg (by simpa using hp)]
        exact ih hh.2

theorem homogEntries_aset (l : List (String × Val)) (k : String) (v : Val)
    (hh : homogEntries l = true) (hv : homogVal v = true) :
    homogEntries (aset l k v) = true := by
  induction l with
  | nil => simpa [aset, homogEntries] using hv
  | cons e rest ih =>
      obtain ⟨k2, v2⟩ := e
      rw [homogEntries, Bool.and_eq_true] at hh
      by_cases he : k2 = k
      · rw [aset, if_pos he, homogEntries, Bool.and_eq_true]
        exact ⟨hv, hh.2⟩
      · rw [aset, if_neg he, homogEntries, Bool.and_eq_true]
        exact ⟨hh.1, ih hh.2⟩

theorem noMapList_mem (l : List Val) (y : Val) (h : noMapList l = true)
    (hy : y ∈ l) : isVMap y = false := by
  induction l with
  | nil => exact absurd hy (List.not_mem_nil _)
  | cons x rest ih =>
      rcases List.mem_cons.mp hy with h1 | h2
      · subst h1
        cases y with
        | vMap m => exact absurd h (by simp [noMapList])
        | vNone => rfl
        | vBool b => rfl
        | vStr s => rfl
        | vList l2 => rfl
      · cases x with
        | vMap m => exact absurd h (by simp [noMapList])
        | vNone => exact ih (by simpa [noMapList] using h) h2
        | vBool b => exact ih (by simpa [noMapList] using h) h2
        | vStr s => exact ih (by simpa [noMapList] using h) h2
        | vList l2 => exact ih (by simpa [noMapList] using h) h2

theorem trimValue_filter_noMap (l : List Val) (h : noMapList l = true) :
    trimValue (Val.vList (l.filter keepNoNone)) =
      Val.vList (l.filter keepNoNone) := by
  cases hF : l.filter keepNoNone with
  | nil => simp [trimValue]
  | cons y ys =>
      have hym : y ∈ l := List.mem_of_mem_filter (by rw [hF]; exact List.mem_cons_self _ _)
      have hynm := noMapList_mem l y h hym
      have hfid : (y :: ys).filter keepNoNone = y :: ys := by
        rw [← hF]
        exact filter_self_idem _ _
      cases y with
      | vMap m => exact absurd hynm (by simp [isVMap])
      | vNone => simp only [trimValue, hfid]
      | vBool b => simp only [trimValue, hfid]
      | vStr s => simp only [trimValue, hfid]
      | vList l2 => simp only [trimValue, hfid]

mutual

theorem trim_idemE (es : List (String × Val)) (h : homogEntries es = true) :
    _trim_None_strings (_trim_None_strings es) = _trim_None_strings es := by
  have hpt : ∀ e ∈ _trim_None_strings es, trimValue e.2 = e.2 := by
    intro e he
    rw [_trim_None_strings] at he
    have he2 := List.mem_filter.mp he
    obtain ⟨k, v, hm, hev⟩ := mem_trimEntries es e he2.1
    have hv : homogVal v = true := homogEntries_mem es k v h hm
    rw [hev]
    exact trim_idemV v hv
  rw [_trim_None_strings]
  rw [trimEntries_eq_self _ hpt]
  rw [_trim_None_strings]
  exact filter_self_idem _ _
termination_by sizeOf es * 2 + 1
decreasing_by
simp_wf
have h9 := List.sizeOf_lt_of_mem hm
simp only [Prod.mk.sizeOf_spec] at h9
omega

theorem trim_idemV (v : Val) (h : homogVal v = true) :
    trimValue (trimValue v) = trimValue v := by
  match v with
  | Val.vNone => simp only [trimValue]
  | Val.vBool b => simp only [trimValue]
  | Val.vStr s =>
      by_cases hc : strContains s ("None") = true
      · simp [trimValue, hc]
      · simp [trimValue, hc]
  | Val.vMap es =>
      have hE := trim_idemE es (by simpa [homogVal] using h)
      simp only [trimValue]
      rw [hE]
  | Val.vList [] => simp only [trimValue]
  | Val.vList (Val.vMap m :: xs) =>
      have hh : homogMapList (Val.vMap m :: xs) = true := by
        have h2 := h
        simp only [homogVal, noMapList, Bool.or_false] at h2
        exact h2
      obtain ⟨hDD, hmem⟩ := trim_idemD (Val.vMap m :: xs) hh
      rw [show trimValue (Val.vList (Val.vMap m :: xs)) =
        Val.vList (trimDictList (Val.vMap m :: xs)) by rw [trimValue]]
      cases hT : trimDictList (Val.vMap m :: xs) with
      | nil => simp [trimValue]
      | cons y0 ys =>
          have hy0 : y0 ∈ trimDictList (Val.vMap m :: xs) := by
            rw [hT]
            exact List.mem_cons_self _ _
          obtain ⟨t, hyt⟩ := hmem y0 hy0
          rw [hT] at hDD
          rw [hyt] at hDD
          rw [hyt]
          rw [show trimValue (Val.vList (Val.vMap t :: ys)) =
            Val.vList (trimDictList (Val.vMap t :: ys)) by rw [trimValue]]
          rw [hDD]
  | Val.vList (Val.vNone :: xs) =>
      have hnm : noMapList (Val.vNone :: xs) = true := by
        have h2 := h
        simp only [homogVal, homogMapList, Bool.false_or] at h2
        exact h2
      rw [show trimValue (Val.vList (Val.vNone :: xs)) =
        Val.vList ((Val.vNone :: xs).filter keepNoNone) by rw [trimValue]; simp]
      exact trimValue_filter_noMap _ hnm
  | Val.vList (Val.vBool b :: xs) =>
      have hnm : noMapList (Val.vBool b :: xs) = true := by
        have h2 := h
        simp only [homogVal, homogMapList, Bool.false_or] at h2
        exact h2
      rw [show trimValue (Val.vList (Val.vBool b :: xs)) =
        Val.vList ((Val.vBool b :: xs).filter keepNoNone) by rw [trimValue]; simp]
      exact trimValue_filter_noMap _ hnm
  | Val.vList (Val.vStr s :: xs) =>
      have hnm : noMapList (Val.vStr s :: xs) = true := by
        have h2 := h
        simp only [homogVal, homogMapList, Bool.false_or] at h2
        exact h2
      rw [show trimValue (Val.vList (Val.vStr s :: xs)) =
        Val.vList ((Val.vStr s :: xs).filter keepNoNone) by rw [trimValue]; simp]
      exact trimValue_filter_noMap _ hnm
  | Val.vList (Val.vList l2 :: xs) =>
      have hnm : noMapList (Val.vList l2 :: xs) = true := by
        have h2 := h
        simp only [homogVal, homogMapList, Bool.false_or] at h2
        exact h2
      rw [show trimValue (Val.vList (Val.vList l2 :: xs)) =
        Val.vList ((Val.vList l2 :: xs).filter keepNoNone) by rw [trimValue]; simp]
      exact trimValue_filter_noMap _ hnm
termination_by sizeOf v * 2
decreasing_by
all_goals simp_wf
all_goals omega

theorem trim_idemD (xs : List Val) (h : homogMapList xs = true) :
    trimDictList (trimDictList xs) = trimDictList xs ∧
      ∀ y ∈ trimDictList xs, ∃ t, y = Val.vMap t := by
  match xs with
  | [] =>
      constructor
      · rw [trimDictList, trimDictList]
      · intro y hy
        rw [trimDictList] at hy
        exact absurd hy (List.not_mem_nil _)
  | Val.vMap m :: rest =>
      have hparts : homogEntries m = true ∧ homogMapList rest = true := by
        have h2 := h
        simp only [homogMapList, Bool.and_eq_true] at h2
        exact h2
      have hE := trim_idemE m hparts.1
      obtain ⟨ihD, ihMem⟩ := trim_idemD rest hparts.2
      by_cases hemp : (_trim_None_strings m).isEmpty = true
      · rw [show trimDictList (Val.vMap m :: rest) = trimDictList rest by
          rw [trimDictList]
          simp only [hemp, if_pos]]
        exact ⟨ihD, ihMem⟩
      · rw [show trimDictList (Val.vMap m :: rest) =
          Val.vMap (_trim_None_strings m) :: trimDictList rest by
          rw [trimDictList]
          simp only [hemp, if_neg, Bool.false_eq_true, not_false_iff]]
        constructor
        · rw [show trimDictList
              (Val.vMap (_trim_None_strings m) :: trimDictList rest) =
              if (_trim_None_strings (_trim_None_strings m)).isEmpty then
                trimDictList (trimDictList rest)
              else Val.vMap (_trim_None_strings (_trim_None_strings m)) ::
                trimDictList (trimDictList rest) by
            rw [trimDictList]]
          rw [hE, ihD, if_neg (by simpa using hemp)]
        · intro y hy
          rcases List.mem_cons.mp hy with h1 | h2
          · exact ⟨_, h1⟩
          · exact ihMem y h2
  | Val.vNone :: rest => exact absurd h (by simp [homogMapList])
  | Val.vBool b :: rest => exact absurd h (by simp [homogMapList])
  | Val.vStr s :: rest => exact absurd h (by simp [homogMapList])
  | Val.vList l2 :: rest => exact absurd h (by simp [homogMapList])
termination_by sizeOf xs * 2
decreasing_by
all_goals simp_wf
all_goals omega

end

theorem aset_lookup_self (l : List (String × Val)) (k : String) (v : Val)
    (h : alookup l k = some v) : aset l k v = l := by
  induction l with
  | nil => exact absurd h (by simp [alookup])
  | cons e rest ih =>
      obtain ⟨k2, v2⟩ := e
      by_cases he : k2 = k
      · rw [alookup, if_pos he] at h
        rw [aset, if_pos he, he, Option.some.inj h]
      · rw [alookup, if_neg he] at h
        rw [aset, if_neg he, ih h]

theorem aerase_absent (l : List (String × Val)) (k : String)
    (h : alookup l k = none) : aerase l k = l := by
  induction l with
  | nil => rfl
  | cons e rest ih =>
      obtain ⟨k2, v2⟩ := e
      by_cases he : k2 = k
      · rw [alookup, if_pos he] at h
        exact absurd h (by simp)
      · rw [alookup, if_neg he] at h
        unfold aerase
        rw [List.filter_cons_of_pos (by simpa using he)]
        have := ih h
        unfold aerase at this
        rw [this]

theorem alookup_filter_none {α : Type} (l : List (String × α)) (k : String)
    (p : String × α → Bool) (h : alookup l k = none) :
    alookup (l.filter p) k = none := by
  induction l with
  | nil => rfl
  | cons e rest ih =>
      obtain ⟨k2, v2⟩ := e
      by_cases he : k2 = k
      · rw [alookup, if_pos he] at h
        exact absurd h (by simp)
      · rw [alookup, if_neg he] at h
        by_cases hp : p (k2, v2) = true
        · rw [List.filter_cons_of_pos hp, alookup, if_neg he]
          exact ih h
        · rw [List.filter_cons_of_neg (by simpa using hp)]
          exact ih h

theorem alookup_trimEntries (l : List (String × Val)) (k : String) :
    alookup (trimEntries l) k = (alookup l k).map trimValue := by
  induction l with
  | nil => rw [trimEntries]; rfl
  | cons e rest ih =>
      obtain ⟨k2, v2⟩ := e
      rw [trimEntries]
      by_cases he : k2 = k
      · rw [alookup, if_pos he, alookup, if_pos he]
        rfl
      · rw [alookup, if_neg he, alookup, if_neg he]
        exact ih

theorem alookup_trim_none (es : List (String × Val)) (k : String)
    (h : alookup es k = none) : alookup (_trim_None_strings es) k = none := by
  rw [_trim_None_strings]
  apply alookup_filter_none
  rw [alookup_trimEntries, h]
  rfl

theorem alookup_none_of_not_mem_keys {α : Type} (l : List (String × α))
    (k : String) (h : k ∉ akeys l) : alookup l k = none := by
  induction l with
  | nil => rfl
  | cons e rest ih =>
      obtain ⟨k2, v2⟩ := e
      have hne : k2 ≠ k := by
        intro he
        exact h (by simp [akeys, he])
      rw [alookup, if_neg hne]
      exact ih (fun hm => h (by simp [akeys] at hm ⊢; right; exact hm))

theorem alookup_filter_nodup {α : Type} (l : List (String × α)) (k : String)
    (p : String × α → Bool) (hnd : (akeys l).Nodup) :
    alookup (l.filter p) k =
      match alookup l k with
      | none => none
      | some v => if p (k, v) then some v else none := by
  induction l with
  | nil => rfl
  | cons e rest ih =>
      obtain ⟨k2, v2⟩ := e
      have hnd2 := List.nodup_cons.mp (show (k2 :: akeys rest).Nodup from hnd)
      by_cases he : k2 = k
      · subst he
        by_cases hp : p (k2, v2) = true
        · rw [List.filter_cons_of_pos hp, alookup, if_pos rfl, alookup,
            if_pos rfl]
          simp [hp]
        · rw [List.filter_cons_of_neg (by simpa using hp), alookup, if_pos rfl]
          rw [alookup_filter_none rest k2 p
            (alookup_none_of_not_mem_keys rest k2 hnd2.1)]
          simp [hp]
      · by_cases hp : p (k2, v2) = true
        · rw [List.filter_cons_of_pos hp, alookup, if_neg he, alookup, if_neg he]
          exact ih hnd2.2
        · rw [List.filter_cons_of_neg (by simpa using hp), alookup, if_neg he]
          exact ih hnd2.2

theorem akeys_trimEntries (l : List (String × Val)) :
    akeys (trimEntries l) = akeys l := by
  induction l with
  | nil => rw [trimEntries]
  | cons e rest ih =>
      obtain ⟨k2, v2⟩ := e
      rw [trimEntries]
      simp only [akeys, List.map_cons]
      rw [show (trimEntries rest).map Prod.fst = akeys (trimEntries rest) from
        rfl, ih]
      rfl

theorem akeys_aset_present (l : List (String × Val)) (k : String)
    (v v0 : Val) (h : alookup l k = some v0) : akeys (aset l k v) = akeys l := by
  induction l with
  | nil => exact absurd h (by simp [alookup])
  | cons e rest ih =>
      obtain ⟨k2, v2⟩ := e
      by_cases he : k2 = k
      · rw [aset, if_pos he]
        simp [akeys, he]
      · rw [alookup, if_neg he] at h
        rw [aset, if_neg he]
        simp only [akeys, List.map_cons]
        rw [show (aset rest k v).map Prod.fst = akeys (aset rest k v) from rfl,
          ih h]
        rfl

theorem alookup_trim_nodup (es : List (String × Val)) (k : String)
    (hnd : (akeys es).Nodup) :
    alookup (_trim_None_strings es) k =
      match alookup es k with
      | none => none
      | some v =>
          if isEmptyVal (trimValue v) then none else some (trimValue v) := by
  rw [_trim_None_strings]
  unfold trim_empty_keys
  rw [alookup_filter_nodup _ _ _ (by rw [akeys_trimEntries]; exact hnd)]
  rw [alookup_trimEntries]
  cases halk : alookup es k with
  | none => rfl
  | some v =>
      by_cases hE : isEmptyVal (trimValue v) = true
      · simp [hE]
      · simp [hE]

theorem git_clean_no_tags (sm c : List (String × Val))
    (h : _git_clean sm = Except.ok c) :
    alookup c ("git_branch") = none ∧ alookup c ("git_tag") = none := by
  unfold _git_clean at h
  by_cases hcf : 2 ≤ (gitConflictKeys sm).length
  · rw [if_pos hcf] at h
    exact absurd h (by simp)
  · rw [if_neg hcf] at h
    have hc := Except.ok.inj h
    rw [← hc]
    rw [show git_rev_tags.drop 1 = [("git_branch"), ("git_tag")] from rfl]
    rw [List.foldl_cons, List.foldl_cons, List.foldl_nil]
    constructor
    · rw [alookup_aerase_ne _ _ _ (by decide)]
      by_cases hk : has_rev_tag sm ("git_tag") = true
      · rw [if_pos hk, alookup_aset_ne _ _ _ _ (by decide)]
        exact alookup_aerase_self _ _
      · rw [if_neg hk]
        exact alookup_aerase_self _ _
    · exact alookup_aerase_self _ _

theorem git_clean_id_of_no_tags (sm : List (String × Val))
    (hb : alookup sm ("git_branch") = none)
    (ht : alookup sm ("git_tag") = none) :
    _git_clean sm = Except.ok sm := by
  have hhb : has_rev_tag sm ("git_branch") = false := by
    rw [has_rev_tag, hb]
    rfl
  have hht : has_rev_tag sm ("git_tag") = false := by
    rw [has_rev_tag, ht]
    rfl
  have h1 : aerase sm ("git_branch") = sm := aerase_absent _ _ hb
  have h2 : aerase sm ("git_tag") = sm := aerase_absent _ _ ht
  have hck : gitConflictKeys sm =
      List.filter (fun t => has_rev_tag sm t) [("git_rev")] := by
    unfold gitConflictKeys git_rev_tags
    rw [show (([("git_rev"), ("git_branch"), ("git_tag")]) : List String) =
      [("git_rev")] ++ [("git_branch"), ("git_tag")] from rfl]
    rw [List.filter_append]
    rw [show List.filter (fun t => has_rev_tag sm t)
      [("git_branch"), ("git_tag")] = [] by
        rw [List.filter_cons_of_neg (by simpa using hhb),
          List.filter_cons_of_neg (by simpa using hht)]
        rfl]
    rw [List.append_nil]
  have hlen : ¬ 2 ≤ (gitConflictKeys sm).length := by
    rw [hck]
    by_cases hr : has_rev_tag sm ("git_rev") = true
    · rw [List.filter_cons_of_pos hr]
      simp
    · rw [List.filter_cons_of_neg (by simpa using hr)]
      simp
  unfold _git_clean
  rw [if_neg hlen]
  rw [show git_rev_tags.drop 1 = [("git_branch"), ("git_tag")] from rfl]
  rw [List.foldl_cons, List.foldl_cons, List.foldl_nil]
  simp only [hhb, hht, Bool.false_eq_true, if_neg, not_false_iff, h1, h2]

theorem git_clean_homog (sm c : List (String × Val))
    (hsm : homogEntries sm = true) (h : _git_clean sm = Except.ok c) :
    homogEntries c = true := by
  have hstep : ∀ (acc : List (String × Val)) (key : String),
      homogEntries acc = true →
      homogEntries (aerase
        (if has_rev_tag sm key then
          aset acc ("git_rev") ((alookup acc key).getD (Val.vStr ("")))
        else acc) key) = true := by
    intro acc key hacc
    unfold aerase
    apply homogEntries_filter
    by_cases hk : has_rev_tag sm key = true
    · rw [if_pos hk]
      apply homogEntries_aset _ _ _ hacc
      cases hlk : alookup acc key with
      | none => rfl
      | some v =>
          have := homogEntries_mem acc key v hacc (alookup_mem _ _ _ hlk)
          simpa using this
    · rw [if_neg hk]
      exact hacc
  unfold _git_clean at h
  by_cases hcf : 2 ≤ (gitConflictKeys sm).length
  · rw [if_pos hcf] at h
    exact absurd h (by simp)
  · rw [if_neg hcf] at h
    have hc := Except.ok.inj h
    rw [← hc]
    rw [show git_rev_tags.drop 1 = [("git_branch"), ("git_tag")] from rfl]
    rw [List.foldl_cons, List.foldl_cons, List.foldl_nil]
    exact hstep _ _ (hstep _ _ hsm)

theorem mapM_gitClean_props (xs : List Val) (cs : List Val)
    (hx : homogMapList xs = true)
    (h : xs.mapM gitCleanListElem = Except.ok cs) :
    homogMapList cs = true ∧
      ∀ y ∈ cs, ∃ t, y = Val.vMap t ∧ alookup t ("git_branch") = none ∧
        alookup t ("git_tag") = none := by
  induction xs generalizing cs with
  | nil =>
      have hc : cs = [] := by
        have : Except.ok ([] : List Val) = Except.ok cs := h
        exact (Except.ok.inj this).symm
      subst hc
      exact ⟨rfl, fun y hy => absurd hy (List.not_mem_nil _)⟩
  | cons x rest ih =>
      cases x with
      | vMap m =>
          have hps : homogEntries m = true ∧ homogMapList rest = true := by
            simpa [homogMapList] using hx
          rw [List.mapM_cons] at h
          cases hcl : _git_clean m with
          | error e =>
              rw [show gitCleanListElem (Val.vMap m) = Except.error e by
                show Except.map Val.vMap (_git_clean m) = Except.error e
                rw [hcl]
                rfl] at h
              exact absurd h (by simp [Bind.bind, Except.bind])
          | ok c0 =>
              rw [show gitCleanListElem (Val.vMap m) = Except.ok (Val.vMap c0) by
                show Except.map Val.vMap (_git_clean m) = Except.ok (Val.vMap c0)
                rw [hcl]
                rfl] at h
              cases hrec : rest.mapM gitCleanListElem with
              | error e2 =>
                  rw [hrec] at h
                  exact absurd h (by simp [Bind.bind, Except.bind, Pure.pure])
              | ok cs2 =>
                  rw [hrec] at h
                  have hcs : cs = Val.vMap c0 :: cs2 := by
                    have h2 : Except.ok (Val.vMap c0 :: cs2) = Except.ok cs := h
                    exact (Except.ok.inj h2).symm
                  subst hcs
                  obtain ⟨ih1, ih2⟩ := ih _ hps.2 hrec
                  constructor
                  · simp only [homogMapList, Bool.and_eq_true]
                    exact ⟨git_clean_homog m c0 hps.1 hcl, ih1⟩
                  · intro y hy
                    rcases List.mem_cons.mp hy with h1 | h2
                    · exact ⟨c0, h1, git_clean_no_tags m c0 hcl⟩
                    · exact ih2 y h2
      | vNone => exact absurd hx (by simp [homogMapList])
      | vBool b => exact absurd hx (by simp [homogMapList])
      | vStr s => exact absurd hx (by simp [homogMapList])
      | vList l2 => exact absurd hx (by simp [homogMapList])

theorem mapM_gitClean_id (l : List Val)
    (h : ∀ y ∈ l, gitCleanListElem y = Except.ok y) :
    l.mapM gitCleanListElem = Except.ok l := by
  induction l with
  | nil => rfl
  | cons x rest ih =>
      rw [List.mapM_cons, h x (List.mem_cons_self _ _),
        ih (fun y hy => h y (List.mem_cons_of_mem _ hy))]
      rfl

theorem trimDictList_tags (xs : List Val)
    (h : ∀ y ∈ xs, ∃ t, y = Val.vMap t ∧ alookup t ("git_branch") = none ∧
      alookup t ("git_tag") = none) :
    ∀ y ∈ trimDictList xs, ∃ t, y = Val.vMap t ∧
      alookup t ("git_branch") = none ∧ alookup t ("git_tag") = none := by
  induction xs with
  | nil =>
      intro y hy
      rw [trimDictList] at hy
      exact absurd hy (List.not_mem_nil _)
  | cons x rest ih =>
      obtain ⟨t, hxt, htb, htt⟩ := h x (List.mem_cons_self _ _)
      subst hxt
      intro y hy
      have ihr := ih (fun y2 hy2 => h y2 (List.mem_cons_of_mem _ hy2))
      by_cases hemp : (_trim_None_strings t).isEmpty = true
      · rw [show trimDictList (Val.vMap t :: rest) = trimDictList rest by
          rw [trimDictList]
          simp only [hemp, if_pos]] at hy
        exact ihr y hy
      · rw [show trimDictList (Val.vMap t :: rest) =
          Val.vMap (_trim_None_strings t) :: trimDictList rest by
          rw [trimDictList]
          simp only [hemp, if_neg, Bool.false_eq_true, not_false_iff]] at hy
        rcases List.mem_cons.mp hy with h1 | h2
        · exact ⟨_, h1, alookup_trim_none t _ htb, alookup_trim_none t _ htt⟩
        · exact ihr y h2

theorem sanitize_src_none (meta : List (String × Val))
    (hsrc : alookup meta ("source") = none) :
    sanitize meta = Except.ok (_trim_None_strings meta) := by
  unfold sanitize
  rw [hsrc]
  rfl

theorem sanitize_src_map_ok (meta sm c : List (String × Val))
    (hsrc : alookup meta ("source") = some (Val.vMap sm))
    (hclean : _git_clean sm = Except.ok c) :
    sanitize meta =
      Except.ok (_trim_None_strings (aset meta ("source") (Val.vMap c))) := by
  unfold sanitize
  rw [hsrc]
  show (do
    let c2 ← _git_clean sm
    let y ← pure (aset meta ("source") (Val.vMap c2))
    pure (_trim_None_strings y) : Except String (List (String × Val))) = _
  rw [hclean]
  rfl

theorem sanitize_src_map_err (meta sm : List (String × Val)) (e : String)
    (hsrc : alookup meta ("source") = some (Val.vMap sm))
    (hclean : _git_clean sm = Except.error e) :
    sanitize meta = Except.error e := by
  unfold sanitize
  rw [hsrc]
  show (do
    let c2 ← _git_clean sm
    let y ← pure (aset meta ("source") (Val.vMap c2))
    pure (_trim_None_strings y) : Except String (List (String × Val))) = _
  rw [hclean]
  rfl

theorem sanitize_src_list_ok (meta : List (String × Val)) (xs cs : List Val)
    (hsrc : alookup meta ("source") = some (Val.vList xs))
    (hm : xs.mapM gitCleanListElem = Except.ok cs) :
    sanitize meta =
      Except.ok (_trim_None_strings (aset meta ("source") (Val.vList cs))) := by
  unfold sanitize
  rw [hsrc]
  show (do
    let cs2 ← xs.mapM gitCleanListElem
    let y ← pure (aset meta ("source") (Val.vList cs2))
    pure (_trim_None_strings y) : Except String (List (String × Val))) = _
  rw [hm]
  rfl

theorem sanitize_src_list_err (meta : List (String × Val)) (xs : List Val)
    (e : String)
    (hsrc : alookup meta ("source") = some (Val.vList xs))
    (hm : xs.mapM gitCleanListElem = Except.error e) :
    sanitize meta = Except.error e := by
  unfold sanitize
  rw [hsrc]
  show (do
    let cs2 ← xs.mapM gitCleanListElem
    let y ← pure (aset meta ("source") (Val.vList cs2))
    pure (_trim_None_strings y) : Except String (List (String × Val))) = _
  rw [hm]
  rfl

theorem sanitize_src_str (meta : List (String × Val)) (s : String)
    (hsrc : alookup meta ("source") = some (Val.vStr s)) :
    sanitize meta =
      Except.error ("source must be a mapping or list of mappings") := by
  unfold sanitize
  rw [hsrc]
  rfl

theorem sanitize_src_bool (meta : List (String × Val)) (b : Bool)
    (hsrc : alookup meta ("source") = some (Val.vBool b)) :
    sanitize meta =
      Except.error ("source must be a mapping or list of mappings") := by
  unfold sanitize
  rw [hsrc]
  rfl

theorem sanitize_src_vnone (meta : List (String × Val))
    (hsrc : alookup meta ("source") = some Val.vNone) :
    sanitize meta =
      Except.error ("source must be a mapping or list of mappings") := by
  unfold sanitize
  rw [hsrc]
  rfl

/-- C9 (amended): on a document whose top-level keys are distinct and whose
sequences are homogeneous (every list consists entirely of mappings or
contains no mapping at all), `sanitize` is idempotent: a second application
returns the first result unchanged. -/
theorem sanitize_idempotent (meta meta1 : List (String × Val))
    (hh : homogEntries meta = true) (hnd : (akeys meta).Nodup)
    (h1 : sanitize meta = Except.ok meta1) :
    sanitize meta1 = Except.ok meta1 := by
  cases hsrc : alookup meta ("source") with
  | none =>
      rw [sanitize_src_none meta hsrc] at h1
      have hm1 : meta1 = _trim_None_strings meta := (Except.ok.inj h1).symm
      have hsrc1 : alookup meta1 ("source") = none := by
        rw [hm1]
        exact alookup_trim_none _ _ hsrc
      rw [sanitize_src_none meta1 hsrc1, hm1, trim_idemE meta hh]
  | some v =>
      cases v with
      | vStr s =>
          rw [sanitize_src_str meta s hsrc] at h1
          exact absurd h1 (by simp)
      | vBool b =>
          rw [sanitize_src_bool meta b hsrc] at h1
          exact absurd h1 (by simp)
      | vNone =>
          rw [sanitize_src_vnone meta hsrc] at h1
          exact absurd h1 (by simp)
      | vMap sm =>
          have hsmE : homogEntries sm = true := by
            have hv := homogEntries_mem meta ("source") (Val.vMap sm) hh
              (alookup_mem _ _ _ hsrc)
            simpa [homogVal] using hv
          cases hclean : _git_clean sm with
          | error e =>
              rw [sanitize_src_map_err meta sm e hsrc hclean] at h1
              exact absurd h1 (by simp)
          | ok c =>
              rw [sanitize_src_map_ok meta sm c hsrc hclean] at h1
              have hm1 : meta1 =
                  _trim_None_strings (aset meta ("source") (Val.vMap c)) :=
                (Except.ok.inj h1).symm
              have hcE : homogEntries c = true := git_clean_homog sm c hsmE hclean
              have hmeta2 :
                  homogEntries (aset meta ("source") (Val.vMap c)) = true :=
                homogEntries_aset _ _ _ hh (by simpa [homogVal] using hcE)
              have hnd2 : (akeys (aset meta ("source") (Val.vMap c))).Nodup := by
                rw [akeys_aset_present _ _ _ _ hsrc]
                exact hnd
              have hidem : _trim_None_strings meta1 = meta1 := by
                rw [hm1]
                exact trim_idemE _ hmeta2
              have hlk2 : alookup (aset meta ("source") (Val.vMap c))
                  ("source") = some (Val.vMap c) := alookup_aset_self _ _ _
              have htv : trimValue (Val.vMap c) =
                  Val.vMap (_trim_None_strings c) := by
                rw [trimValue]
              by_cases hemp : (_trim_None_strings c).isEmpty = true
              · have hsrc1 : alookup meta1 ("source") = none := by
                  rw [hm1, alookup_trim_nodup _ _ hnd2, hlk2]
                  show (if isEmptyVal (trimValue (Val.vMap c)) then none
                    else some (trimValue (Val.vMap c))) = none
                  rw [htv, if_pos (show isEmptyVal
                    (Val.vMap (_trim_None_strings c)) = true from hemp)]
                rw [sanitize_src_none meta1 hsrc1, hidem]
              · have hsrc1 : alookup meta1 ("source") =
                    some (Val.vMap (_trim_None_strings c)) := by
                  rw [hm1, alookup_trim_nodup _ _ hnd2, hlk2]
                  show (if isEmptyVal (trimValue (Val.vMap c)) then none
                    else some (trimValue (Val.vMap c))) = _
                  rw [htv, if_neg (show ¬ isEmptyVal
                    (Val.vMap (_trim_None_strings c)) = true from hemp)]
                have htags := git_clean_no_tags sm c hclean
                have hclean2 : _git_clean (_trim_None_strings c) =
                    Except.ok (_trim_None_strings c) :=
                  git_clean_id_of_no_tags _
                    (alookup_trim_none _ _ htags.1)
                    (alookup_trim_none _ _ htags.2)
                rw [sanitize_src_map_ok meta1 _ _ hsrc1 hclean2,
                  aset_lookup_self _ _ _ hsrc1, hidem]
      | vList xs =>
          cases hmapm : xs.mapM gitCleanListElem with
          | error e =>
              rw [sanitize_src_list_err meta xs e hsrc hmapm] at h1
              exact absurd h1 (by simp)
          | ok cs =>
              rw [sanitize_src_list_ok meta xs cs hsrc hmapm] at h1
              have hm1 : meta1 =
                  _trim_None_strings (aset meta ("source") (Val.vList cs)) :=
                (Except.ok.inj h1).symm
              have hvx : homogVal (Val.vList xs) = true :=
                homogEntries_mem meta ("source") (Val.vList xs) hh
                  (alookup_mem _ _ _ hsrc)
              have hx : homogMapList xs = true := by
                have hor : homogMapList xs = true ∨ noMapList xs = true := by
                  simpa [homogVal, Bool.or_eq_true] using hvx
                rcases hor with h9 | h9
                · exact h9
                · cases xs with
                  | nil => rfl
                  | cons y rest =>
                      cases y with
                      | vMap m => exact absurd h9 (by simp [noMapList])
                      | vNone =>
                          rw [List.mapM_cons, show gitCleanListElem Val.vNone =
                            Except.error
                              ("source list entries must be mappings") from
                            rfl] at hmapm
                          exact absurd hmapm (by simp [Bind.bind, Except.bind])
                      | vBool b2 =>
                          rw [List.mapM_cons,
                            show gitCleanListElem (Val.vBool b2) =
                            Except.error
                              ("source list entries must be mappings") from
                            rfl] at hmapm
                          exact absurd hmapm (by simp [Bind.bind, Except.bind])
                      | vStr s2 =>
                          rw [List.mapM_cons,
                            show gitCleanListElem (Val.vStr s2) =
                            Except.error
                              ("source list entries must be mappings") from
                            rfl] at hmapm
                          exact absurd hmapm (by simp [Bind.bind, Except.bind])
                      | vList l2 =>
                          rw [List.mapM_cons,
                            show gitCleanListElem (Val.vList l2) =
                            Except.error
                              ("source list entries must be mappings") from
                            rfl] at hmapm
                          exact absurd hmapm (by simp [Bind.bind, Except.bind])
              obtain ⟨hcsH, hcsP⟩ := mapM_gitClean_props xs cs hx hmapm
              have hmeta2 :
                  homogEntries (aset meta ("source") (Val.vList cs)) = true :=
                homogEntries_aset _ _ _ hh (by simp [homogVal, hcsH])
              have hnd2 : (akeys (aset meta ("source") (Val.vList cs))).Nodup := by
                rw [akeys_aset_present _ _ _ _ hsrc]
                exact hnd
              have hidem : _trim_None_strings meta1 = meta1 := by
                rw [hm1]
                exact trim_idemE _ hmeta2
              have hlk2 : alookup (aset meta ("source") (Val.vList cs))
                  ("source") = some (Val.vList cs) := alookup_aset_self _ _ _
              cases cs with
              | nil =>
                  have hsrc1 : alookup meta1 ("source") = none := by
                    rw [hm1, alookup_trim_nodup _ _ hnd2, hlk2]
                    show (if isEmptyVal (trimValue (Val.vList [])) then none
                      else some (trimValue (Val.vList []))) = none
                    rw [show trimValue (Val.vList []) = Val.vList [] by
                      rw [trimValue]]
                    rfl
                  rw [sanitize_src_none meta1 hsrc1, hidem]
              | cons y0 cs2 =>
                  obtain ⟨t0, hy0, _, _⟩ := hcsP y0 (List.mem_cons_self _ _)
                  subst hy0
                  have htv : trimValue (Val.vList (Val.vMap t0 :: cs2)) =
                      Val.vList (trimDictList (Val.vMap t0 :: cs2)) := by
                    rw [trimValue]
                  cases hT3 : trimDictList (Val.vMap t0 :: cs2) with
                  | nil =>
                      have hsrc1 : alookup meta1 ("source") = none := by
                        rw [hm1, alookup_trim_nodup _ _ hnd2, hlk2]
                        show (if isEmptyVal
                            (trimValue (Val.vList (Val.vMap t0 :: cs2))) then
                          none else some (trimValue
                            (Val.vList (Val.vMap t0 :: cs2)))) = none
                        rw [htv, hT3]
                        rfl
                      rw [sanitize_src_none meta1 hsrc1, hidem]
                  | cons z0 zs =>
                      have hsrc1 : alookup meta1 ("source") =
                          some (Val.vList (z0 :: zs)) := by
                        rw [hm1, alookup_trim_nodup _ _ hnd2, hlk2]
                        show (if isEmptyVal
                            (trimValue (Val.vList (Val.vMap t0 :: cs2))) then
                          none else some (trimValue
                            (Val.vList (Val.vMap t0 :: cs2)))) = _
                        rw [htv, hT3]
                        rfl
                      have htagsP := trimDictList_tags (Val.vMap t0 :: cs2) hcsP
                      have hid : ∀ y ∈ z0 :: zs,
                          gitCleanListElem y = Except.ok y := by
                        intro y hy
                        have hy2 : y ∈ trimDictList (Val.vMap t0 :: cs2) := by
                          rw [hT3]
                          exact hy
                        obtain ⟨t, hyt, htb, htt⟩ := htagsP y hy2
                        rw [hyt]
                        show Except.map Val.vMap (_git_clean t) =
                          Except.ok (Val.vMap t)
                        rw [git_clean_id_of_no_tags t htb htt]
                        rfl
                      have hmapm2 : (z0 :: zs).mapM gitCleanListElem =
                          Except.ok (z0 :: zs) := mapM_gitClean_id _ hid
                      rw [sanitize_src_list_ok meta1 _ _ hsrc1 hmapm2,
                        aset_lookup_self _ _ _ hsrc1, hidem]

/-- C9 counterexample: on the document {k: ["None", {x: "None"}]} - a
heterogeneous sequence mixing a string and a mapping - the first sanitize
keeps the mapping element untouched (string-filter branch), while the
second sanitize sees a mapping-headed sequence, trims the mapping empty
and prunes the key: sanitize(sanitize(d)) differs from sanitize(d). -/
theorem sanitize_not_idempotent :
    (sanitize [(("k"), Val.vList [Val.vStr ("None"),
        Val.vMap [(("x"), Val.vStr ("None"))]])] =
      Except.ok [(("k"),
        Val.vList [Val.vMap [(("x"), Val.vStr ("None"))]])]) ∧
    (sanitize [(("k"),
        Val.vList [Val.vMap [(("x"), Val.vStr ("None"))]])] =
      Except.ok ([] : List (String × Val))) ∧
    ([(("k"), Val.vList [Val.vMap [(("x"), Val.vStr ("None"))]])] :
      List (String × Val)) ≠ [] := by
  have htv1 : trimValue (Val.vList [Val.vStr ("None"),
      Val.vMap [(("x"), Val.vStr ("None"))]]) =
      Val.vList [Val.vMap [(("x"), Val.vStr ("None"))]] := by
    rw [show trimValue (Val.vList (Val.vStr ("None") ::
      [Val.vMap [(("x"), Val.vStr ("None"))]])) =
      Val.vList ((Val.vStr ("None") ::
        [Val.vMap [(("x"), Val.vStr ("None"))]]).filter keepNoNone) by
      rw [trimValue]; simp]
    decide
  have e1 : _trim_None_strings [(("k"), Val.vList [Val.vStr ("None"),
      Val.vMap [(("x"), Val.vStr ("None"))]])] =
      [(("k"), Val.vList [Val.vMap [(("x"), Val.vStr ("None"))]])] := by
    rw [_trim_None_strings]
    simp only [trimEntries]
    rw [htv1]
    rfl
  have htvin : trimValue (Val.vStr ("None")) = Val.vNone := by
    rw [trimValue]
    decide
  have e2m : _trim_None_strings [(("x"), Val.vStr ("None"))] = [] := by
    rw [_trim_None_strings]
    simp only [trimEntries]
    rw [htvin]
    rfl
  have htv2 : trimValue (Val.vList [Val.vMap [(("x"), Val.vStr ("None"))]]) =
      Val.vList [] := by
    have htD : trimDictList (Val.vMap [(("x"), Val.vStr ("None"))] :: []) =
        [] := by
      rw [trimDictList, e2m, trimDictList]
      rfl
    rw [show trimValue (Val.vList
      (Val.vMap [(("x"), Val.vStr ("None"))] :: [])) =
      Val.vList (trimDictList
        (Val.vMap [(("x"), Val.vStr ("None"))] :: [])) by rw [trimValue]]
    rw [htD]
  have e2 : _trim_None_strings [(("k"),
      Val.vList [Val.vMap [(("x"), Val.vStr ("None"))]])] = [] := by
    rw [_trim_None_strings]
    simp only [trimEntries]
    rw [htv2]
    rfl
  refine ⟨?_, ?_, by simp⟩
  · rw [sanitize_src_none _ (by rfl), e1]
  · rw [sanitize_src_none _ (by rfl), e2]

/-- C9 witness: the amended idempotence theorem applied to the document
{source: {git_branch: "r1"}}, whose sanitized form {source: {git_rev: "r1"}}
sanitize maps to itself. -/
theorem sanitize_idempotent_witness :
    sanitize [(("source"), Val.vMap [(("git_rev"), Val.vStr ("r1"))])] =
      Except.ok [(("source"), Val.vMap [(("git_rev"), Val.vStr ("r1"))])] := by
  have hcl : _git_clean [(("git_branch"), Val.vStr ("r1"))] =
      Except.ok [(("git_rev"), Val.vStr ("r1"))] := by decide
  have hin : _trim_None_strings [(("git_rev"), Val.vStr ("r1"))] =
      [(("git_rev"), Val.vStr ("r1"))] := by
    rw [_trim_None_strings]
    simp only [trimEntries]
    rw [show trimValue (Val.vStr ("r1")) = Val.vStr ("r1") by
      rw [trimValue]; decide]
    rfl
  have h1 : sanitize [(("source"),
      Val.vMap [(("git_branch"), Val.vStr ("r1"))])] =
      Except.ok [(("source"), Val.vMap [(("git_rev"), Val.vStr ("r1"))])] := by
    rw [sanitize_src_map_ok _ _ _ (by rfl) hcl]
    show Except.ok (_trim_None_strings [(("source"),
      Val.vMap [(("git_rev"), Val.vStr ("r1"))])]) = _
    rw [_trim_None_strings]
    simp only [trimEntries]
    rw [show trimValue (Val.vMap [(("git_rev"), Val.vStr ("r1"))]) =
      Val.vMap (_trim_None_strings [(("git_rev"), Val.vStr ("r1"))]) by
      rw [trimValue]]
    rw [hin]
    rfl
  exact sanitize_idempotent _ _ (by decide) (by decide) h1
